import Mathlib

/-!
Verification of the `xdiff` XML differencing engine (packages `xdiff` and
`xtree`) against its natural-language specification.

The Go sources are shallowly embedded: byte strings become `List Nat`,
pointer-identified tree nodes become index paths (`List Nat`) into an
immutable tree value, Go `map`s become association lists iterated in
insertion order (Go map iteration order is unspecified; a deterministic
stand-in is used), and the iterative traversals of `Prepare` and `Compare`
become fuel-indexed loops over explicit stacks, exactly mirroring the
source's stack discipline, including the 10000-entry stack cap.

The SHA-1 backend (`crypto/sha1`, external to the repository) is kept
abstract: every definition and theorem is parametric in a
`digest : List Nat → List Nat` function; concrete witnesses instantiate it
with a simple computable function.
-/

namespace XDiff

/-- Node types, in Go declaration order (`NotXML = iota`, so the Go byte
value of each constructor is its position here). -/
inductive NodeType where
  | NotXML
  | Directory
  | Document
  | Element
  | Attribute
  | Data
  | CData
  | Comment
  | Declaration
  | Doctype
  | ProcInstr
deriving DecidableEq

/-- The value `byte(n.Type)` written into the hash by `Node.CalculateHash`. -/
def NodeType.byteVal : NodeType → Nat
  | .NotXML => 0
  | .Directory => 1
  | .Document => 2
  | .Element => 3
  | .Attribute => 4
  | .Data => 5
  | .CData => 6
  | .Comment => 7
  | .Declaration => 8
  | .Doctype => 9
  | .ProcInstr => 10

/-- `NodeType.Signature`: the ASCII bytes of the stringer-generated name of
the node type ("NotXML", "Directory", ..., "ProcInstr"). -/
def NodeType.tag : NodeType → List Nat
  | .NotXML => [78, 111, 116, 88, 77, 76]
  | .Directory => [68, 105, 114, 101, 99, 116, 111, 114, 121]
  | .Document => [68, 111, 99, 117, 109, 101, 110, 116]
  | .Element => [69, 108, 101, 109, 101, 110, 116]
  | .Attribute => [65, 116, 116, 114, 105, 98, 117, 116, 101]
  | .Data => [68, 97, 116, 97]
  | .CData => [67, 68, 97, 116, 97]
  | .Comment => [67, 111, 109, 109, 101, 110, 116]
  | .Declaration => [68, 101, 99, 108, 97, 114, 97, 116, 105, 111, 110]
  | .Doctype => [68, 111, 99, 116, 121, 112, 101]
  | .ProcInstr => [80, 114, 111, 99, 73, 110, 115, 116, 114]

/-- The scalar fields of an `xtree.Node`: type, name, value, and the
`Signature` and `Hash` fields written by the preparer (empty before). -/
structure NodeData where
  type : NodeType
  name : List Nat
  value : List Nat
  sig : List Nat
  hash : List Nat
deriving DecidableEq

/-- An `xtree` as a value: a node's scalar fields plus its children in
sibling order.  The Go `Parent` / `NextSibling` / `PrevSiblingCyclic`
pointers are recovered from index paths into this value (the separate heap
model below handles the claims about the pointer structure itself). -/
inductive XTree where
  | node : NodeData → List XTree → XTree

def XTree.data : XTree → NodeData
  | .node d _ => d

def XTree.children : XTree → List XTree
  | .node _ cs => cs

def XTree.sigF (t : XTree) : List Nat := t.data.sig

def XTree.hashF (t : XTree) : List Nat := t.data.hash

mutual
def XTree.beq : XTree → XTree → Bool
  | .node d cs, .node e es => decide (d = e) && XTree.beqL cs es
def XTree.beqL : List XTree → List XTree → Bool
  | [], [] => true
  | c :: cs, e :: es => XTree.beq c e && XTree.beqL cs es
  | _, _ => false
end

mutual
theorem XTree.beq_iff : ∀ a b : XTree, XTree.beq a b = true ↔ a = b
  | .node d cs, .node e es => by
    simp only [XTree.beq, Bool.and_eq_true, decide_eq_true_eq, XTree.node.injEq]
    exact and_congr Iff.rfl (XTree.beqL_iff cs es)
theorem XTree.beqL_iff : ∀ as bs : List XTree, XTree.beqL as bs = true ↔ as = bs
  | [], [] => by simp [XTree.beqL]
  | [], _ :: _ => by simp [XTree.beqL]
  | _ :: _, [] => by simp [XTree.beqL]
  | a :: as, b :: bs => by
    simp only [XTree.beqL, Bool.and_eq_true, List.cons.injEq]
    exact and_congr (XTree.beq_iff a b) (XTree.beqL_iff as bs)
end

instance : DecidableEq XTree := fun a b =>
  decidable_of_iff (XTree.beq a b = true) (XTree.beq_iff a b)

mutual
/-- Number of nodes of a tree / forest. -/
def XTree.sz : XTree → Nat
  | .node _ cs => 1 + XTree.szL cs
def XTree.szL : List XTree → Nat
  | [] => 0
  | c :: cs => XTree.sz c + XTree.szL cs
end

mutual
/-- Depth (number of nodes on the longest root-to-leaf chain). -/
def XTree.depth : XTree → Nat
  | .node _ cs => 1 + XTree.depthL cs
def XTree.depthL : List XTree → Nat
  | [] => 0
  | c :: cs => max (XTree.depth c) (XTree.depthL cs)
end

/-- Maximum stack usage of the source's iterative first-child/next-sibling
traversal on a sibling forest: a node is held on the stack while its
children and its later siblings are processed. -/
def XTree.bdL : List XTree → Nat
  | [] => 0
  | .node _ cs :: rest => 1 + max (XTree.bdL cs) (XTree.bdL rest)

theorem XTree.depthL_le_bdL : ∀ cs : List XTree, XTree.depthL cs ≤ XTree.bdL cs
  | [] => by simp [XTree.depthL, XTree.bdL]
  | .node _ cs :: rest => by
    have h1 := XTree.depthL_le_bdL cs
    have h2 := XTree.depthL_le_bdL rest
    simp only [XTree.depthL, XTree.depth, XTree.bdL]
    omega

/-! ### Byte strings and signatures -/

/-- `bytes.Join(sig, []byte{0x2f})`: join byte strings with `/` (byte 47). -/
def joinSep : List (List Nat) → List Nat
  | [] => []
  | [x] => x
  | x :: xs => x ++ 47 :: joinSep xs

/-- Split a byte string at every `/` (byte 47); total, never returns `[]`. -/
def splitSep : List Nat → List (List Nat)
  | [] => [[]]
  | c :: rest =>
    match splitSep rest with
    | [] => [[c]]
    | h :: t => if c = 47 then [] :: h :: t else (c :: h) :: t

/-- Strip the last `/`-delimited segment of a byte string. -/
def stripLastSeg (s : List Nat) : List Nat := joinSep (splitSep s).dropLast

/-- `Node.CalculateSignature`, as a function of the node's ancestor-name
chain (root first; `anc = []` exactly when the node is the root), its type
and its name: the root's signature is the single byte `/`; otherwise all
ancestor names (empty ones included), then the node's name if non-empty,
then the type tag, joined by `/`. -/
def sigOf (anc : List (List Nat)) (t : NodeType) (name : List Nat) : List Nat :=
  match anc with
  | [] => [47]
  | _ =>
    if name ≠ [] then joinSep (anc ++ [name, t.tag])
    else joinSep (anc ++ [t.tag])

/-! ### Paths -/

/-- A node of a fixed tree is identified by the list of child indices
leading to it from the root; `[]` is the root.  This is the value-level
stand-in for Go's pointer identity. -/
abbrev Path := List Nat

/-- Subtree at a path. -/
def XTree.sub : XTree → Path → Option XTree
  | t, [] => some t
  | .node _ cs, i :: p =>
    match cs[i]? with
    | some c => XTree.sub c p
    | none => none

/-- A throwaway node used where Go would dereference a pointer that is
always valid at that program point. -/
def dummyNode : XTree := .node ⟨.NotXML, [], [], [], []⟩ []

/-- Subtree at a path, defaulting to `dummyNode` (used only on paths that
are valid by construction, mirroring a Go pointer dereference). -/
def XTree.at (t : XTree) (p : Path) : XTree := (t.sub p).getD dummyNode

/-- Number of children of the node at a path (0 for invalid paths). -/
def XTree.childCount (t : XTree) (p : Path) : Nat := (t.at p).children.length

/-- `n.FirstChild` as a path: `p ++ [0]` when the node has children. -/
def firstChildPath (t : XTree) (p : Path) : Option Path :=
  if 0 < t.childCount p then some (p ++ [0]) else none

/-- `n.NextSibling` as a path: bump the last index if the parent has a
further child; the root has no sibling. -/
def nextSiblingPath (t : XTree) (p : Path) : Option Path :=
  match p.getLast? with
  | none => none
  | some i =>
    if i + 1 < t.childCount p.dropLast then some (p.dropLast ++ [i + 1]) else none

/-- Names of the proper ancestors of the node at a path, root first
(the `for parent := n.Parent; ...` chain of `CalculateSignature`). -/
def ancNames (t : XTree) : Path → List (List Nat)
  | [] => []
  | i :: p =>
    match t with
    | .node d cs =>
      match cs[i]? with
      | some c => d.name :: ancNames c p
      | none => [d.name]

/-! ### The recursive reference preparer -/

/-- Serialised hash input of `Node.CalculateHash`: the type byte, the name,
the value, then the `Hash` fields of the children in sibling order. -/
def hashInput (d : NodeData) (cs : List XTree) : List Nat :=
  [d.type.byteVal] ++ d.name ++ d.value ++ (cs.map XTree.hashF).flatten

mutual
/-- The bottom-up recursive hash `H(node) = digest(type ∥ name ∥ value ∥
H(c₁) ∥ … ∥ H(cₖ))` the specification describes (independent of the stored
`sig`/`hash` fields). -/
def hashR (digest : List Nat → List Nat) : XTree → List Nat
  | .node d cs => digest ([d.type.byteVal] ++ d.name ++ d.value ++ (hashRL digest cs).flatten)
def hashRL (digest : List Nat → List Nat) : List XTree → List (List Nat)
  | [] => []
  | c :: cs => hashR digest c :: hashRL digest cs
end

mutual
/-- Recursive reference preparer: sets every node's `sig` from the
ancestor-name chain `anc` and its `hash` to the recursive hash.  The claims
below prove that the iterative `Prepare` of the source computes exactly
this. -/
def prepR (digest : List Nat → List Nat) (anc : List (List Nat)) : XTree → XTree
  | .node d cs =>
    let cs' := prepRL digest (anc ++ [d.name]) cs
    .node { d with sig := sigOf anc d.type d.name,
                   hash := digest (hashInput d cs') } cs'
def prepRL (digest : List Nat → List Nat) (anc : List (List Nat)) :
    List XTree → List XTree
  | [] => []
  | c :: cs => prepR digest anc c :: prepRL digest anc cs
end

/-! ### The iterative preparer (`xtree.Prepare`)

`Prepare` walks the tree with an explicit stack of at most `maxStackSize`
nodes; a failed `Push` aborts with an error.  The walk is modelled on paths
into the (immutable) input tree; the `Signature`/`Hash` field writes are
collected in a `FieldStore` and applied to the tree at the end.  The loop
is indexed by fuel (the Go loop always terminates; the wrapper passes a
fuel that is proved sufficient). -/

/-- `maxStackSize` of `xtree`. -/
def maxStackSize : Nat := 10000

inductive PrepErr where
  | depthExceeded
deriving DecidableEq

/-- Pending `(Signature, Hash)` field writes, per path. -/
def FieldStore := Path → Option (List Nat × List Nat)

def fsSet (fs : FieldStore) (p : Path) (v : List Nat × List Nat) : FieldStore :=
  fun q => if q = p then some v else fs q

/-- The `Hash` fields of the children at indices `i, i+1, ...` of the node
at `q`, as read by `CalculateHash` mid-traversal: the pending write if the
child was already finalised, its original field otherwise. -/
def chGo (fs : FieldStore) (q : Path) : Nat → List XTree → List (List Nat)
  | _, [] => []
  | i, c :: cs =>
    (match fs (q ++ [i]) with
     | some v => v.2
     | none => c.hashF) :: chGo fs q (i + 1) cs

def childHashes (t : XTree) (fs : FieldStore) (q : Path) : List (List Nat) :=
  chGo fs q 0 (t.at q).children

/-- The hash `Node.CalculateHash` writes at path `q` given the pending
writes `fs`. -/
def hashAt (digest : List Nat → List Nat) (t : XTree) (fs : FieldStore) (q : Path) :
    List Nat :=
  digest ([(t.at q).data.type.byteVal] ++ (t.at q).data.name ++ (t.at q).data.value
    ++ (childHashes t fs q).flatten)

/-- The signature `Node.CalculateSignature` writes at path `q`. -/
def sigAt (t : XTree) (q : Path) : List Nat :=
  sigOf (ancNames t q) (t.at q).data.type (t.at q).data.name

/-- The loop of `xtree.Prepare`: push and descend first children; otherwise
switch to an unvisited next sibling; otherwise finalise (signature + hash)
and pop.  `none` means the fuel ran out (an artifact of the embedding, the
Go loop terminates). -/
def prepLoop (digest : List Nat → List Nat) (t : XTree) :
    Nat → List Path → Option Path → Option Path → FieldStore →
    Option (Except PrepErr FieldStore)
  | 0, _, _, _, _ => none
  | fuel + 1, stack, cur, lv, fs =>
    match cur with
    | some p =>
      if stack.length = maxStackSize then some (.error .depthExceeded)
      else prepLoop digest t fuel (p :: stack) (firstChildPath t p) lv fs
    | none =>
      match stack with
      | [] => some (.ok fs)
      | q :: rest =>
        match nextSiblingPath t q with
        | some sib =>
          if lv ≠ some sib then prepLoop digest t fuel stack (some sib) lv fs
          else prepLoop digest t fuel rest none (some q)
            (fsSet fs q (sigAt t q, hashAt digest t fs q))
        | none =>
          prepLoop digest t fuel rest none (some q)
            (fsSet fs q (sigAt t q, hashAt digest t fs q))

mutual
/-- Apply the pending field writes to the tree (`p` is the path of the
current node). -/
def applyFs (fs : FieldStore) (p : Path) : XTree → XTree
  | .node d cs =>
    .node (match fs p with
           | some v => { d with sig := v.1, hash := v.2 }
           | none => d)
      (applyFsL fs p 0 cs)
def applyFsL (fs : FieldStore) (p : Path) (i : Nat) : List XTree → List XTree
  | [] => []
  | c :: cs => applyFs fs (p ++ [i]) c :: applyFsL fs p (i + 1) cs
end

/-- Fuel sufficient for `prepLoop` (each node accounts for at most three
loop iterations; proved sufficient below). -/
def prepFuel (t : XTree) : Nat := 3 * t.sz + 2

/-- `xtree.Prepare`: run the iterative loop from the root and apply the
collected field writes.  Outer `none` = fuel artifact (never happens with
`prepFuel`). -/
def Prepare (digest : List Nat → List Nat) (t : XTree) :
    Option (Except PrepErr XTree) :=
  (prepLoop digest t (prepFuel t) [] (some []) none (fun _ => none)).map
    (fun r => r.map (fun fs => applyFs fs [] t))

/-! ### The reducer (`xdiff.reduceMatchingSpace`)

The source walks the two child lists in lockstep (`l = l.NextSibling`,
`r = r.NextSibling` each iteration, stopping when either runs out).  For a
positional pair of Element children with equal signatures it records the
pair as a removal candidate when the hashes are byte-equal and recurses
otherwise; afterwards every candidate except the last is detached from
both parents. -/

/-- Drop the first `n` candidate pairs (Go removes `candidates[i]` for
`i < len(candidates)-1`, keeping the last). -/
def dropCands : List (XTree × XTree × Bool) → Nat → List (XTree × XTree)
  | [], _ => []
  | x :: xs, n =>
    if x.2.2 then
      if n = 0 then (x.1, x.2.1) :: dropCands xs 0
      else dropCands xs (n - 1)
    else (x.1, x.2.1) :: dropCands xs n

mutual
def reduceMatchingSpace (l r : XTree) : XTree × XTree :=
  match l, r with
  | .node dl cls, .node dr crs =>
    let w := reduceWalk cls crs
    let k := w.1.countP (fun x => x.2.2)
    let kept := dropCands w.1 (k - 1)
    (.node dl (kept.map (fun x => x.1) ++ w.2.1),
     .node dr (kept.map (fun x => x.2) ++ w.2.2))

/-- One lockstep walk over the two child lists.  Returns the processed
positional pairs (with a candidate flag) and the unpaired tails. -/
def reduceWalk : List XTree → List XTree →
    List (XTree × XTree × Bool) × List XTree × List XTree
  | [], rs => ([], [], rs)
  | l :: ls, [] => ([], l :: ls, [])
  | l :: ls, r :: rs =>
    let step :=
      if l.data.type = .Element ∧ r.data.type = .Element ∧ l.sigF = r.sigF then
        if l.hashF = r.hashF then (l, r, true)
        else
          let p := reduceMatchingSpace l r
          (p.1, p.2, false)
      else (l, r, false)
    let rest := reduceWalk ls rs
    (step :: rest.1, rest.2.1, rest.2.2)
end

/-! ### Matching and distance tables -/

/-- `minCostMatch`, a set of matched `(left, right)` node pairs (node =
path in the respective tree). -/
abbrev Matching := List (Path × Path)

/-- `distTable`, mapping a node pair to its edit distance.  Association
list in insertion order (a deterministic stand-in for the Go map). -/
abbrev DistTable := List ((Path × Path) × Int)

def hasLeftM (m : Matching) (p : Path) : Bool := m.any fun pr => pr.1 = p

def hasRightM (m : Matching) (p : Path) : Bool := m.any fun pr => pr.2 = p

def minsert (m : Matching) (pr : Path × Path) : Matching :=
  if pr ∈ m then m else pr :: m

/-- Auxiliary for `ancPairs`, consuming the two paths reversed. -/
def ancPairsRev : Path → Path → List (Path × Path)
  | _ :: as, _ :: bs => (as.reverse, bs.reverse) :: ancPairsRev as bs
  | _, _ => []

/-- The `(parentᵏ l, parentᵏ r)` chain inserted by `minCostMatch.Add`,
while both sides still have a parent. -/
def ancPairs (a b : Path) : List (Path × Path) :=
  ancPairsRev a.reverse b.reverse

/-- `minCostMatch.Add`: insert the pair and all simultaneous-ancestor
pairs, unless the pair is present or its left/right node is already
matched. -/
def mcmAdd (m : Matching) (pr : Path × Path) : Matching :=
  if decide (pr ∈ m) || hasLeftM m pr.1 || hasRightM m pr.2 then m
  else (pr :: ancPairs pr.1 pr.2).foldl minsert m

/-- Go map read `distTbl[pair]` (zero value `0` when absent). -/
def dtGet : DistTable → Path × Path → Int
  | [], _ => 0
  | e :: rest, pr => if e.1 = pr then e.2 else dtGet rest pr

/-- `distTable.Set`. -/
def dtSet : DistTable → Path × Path → Int → DistTable
  | [], pr, c => [(pr, c)]
  | e :: rest, pr, c => if e.1 = pr then (pr, c) :: rest else e :: dtSet rest pr c

/-- `costPair` (a node pair with its edit cost). -/
structure CostPair where
  left : Path
  right : Path
  cost : Int
deriving DecidableEq

/-- Stable insertion by cost (deterministic stand-in for `sort.Sort` with
`Less` comparing costs). -/
def insertCP (c : CostPair) : List CostPair → List CostPair
  | [] => [c]
  | d :: ds => if c.cost < d.cost then c :: d :: ds else d :: insertCP c ds

def sortCPs : List CostPair → List CostPair
  | [] => []
  | c :: cs => insertCP c (sortCPs cs)

/-- Append a value to the group of `key` (inserting the group at the end on
first use), for grouping children by signature. -/
def groupAdd (g : List (List Nat × List (Nat × XTree))) (key : List Nat)
    (v : Nat × XTree) : List (List Nat × List (Nat × XTree)) :=
  match g with
  | [] => [(key, [v])]
  | e :: rest =>
    if e.1 = key then (e.1, e.2 ++ [v]) :: rest else e :: groupAdd rest key v

/-- Group the (indexed) children of a node by their `Signature` field. -/
def groupBySigC (children : List XTree) : List (List Nat × List (Nat × XTree)) :=
  children.enum.foldl (fun g ic => groupAdd g ic.2.sigF ic) []

def lookupGroup (g : List (List Nat × List (Nat × XTree))) (key : List Nat) :
    Option (List (Nat × XTree)) :=
  match g with
  | [] => none
  | e :: rest => if e.1 = key then some e.2 else lookupGroup rest key

/-- The greedy assignment loop of `match`: walk the cost-sorted list,
accept a pair iff neither side is used, accumulating the total cost and
the number of accepted pairs. -/
def greedyFold : List CostPair → List Path → List Path → Int → Int → Int × Int
  | [], _, _, dist, mapped => (dist, mapped)
  | c :: rest, ul, ur, dist, mapped =>
    if c.left ∈ ul then greedyFold rest ul ur dist mapped
    else if c.right ∈ ur then greedyFold rest ul ur dist mapped
    else greedyFold rest (c.left :: ul) (c.right :: ur) (dist + c.cost) (mapped + 1)

/-- The list of pairs the greedy loop accepts (same walk as `greedyFold`,
recording the accepted pairs instead of folding the sums). -/
def greedyPick : List CostPair → List Path → List Path → List CostPair
  | [], _, _ => []
  | c :: rest, ul, ur =>
    if c.left ∈ ul then greedyPick rest ul ur
    else if c.right ∈ ur then greedyPick rest ul ur
    else c :: greedyPick rest (c.left :: ul) (c.right :: ur)

/-- The candidate cost list of `match` on two non-leaf nodes: for every
signature group present on both sides, the Cartesian product of the two
groups with the distances already recorded in `dt`. -/
def childCosts (l r : XTree) (lp rp : Path) (dt : DistTable) : List CostPair :=
  (groupBySigC l.children).foldl
    (fun acc e =>
      match lookupGroup (groupBySigC r.children) e.1 with
      | some rcs =>
        acc ++ e.2.foldl
          (fun a lc => a ++ rcs.map fun rc =>
            CostPair.mk (lp ++ [lc.1]) (rp ++ [rc.1])
              (dtGet dt (lp ++ [lc.1], rp ++ [rc.1])))
          []
      | none => acc)
    []

/-- `xdiff.match` (renamed: `match` is reserved in Lean): record the edit
distance of a same-signature pair, and add hash-equal pairs to the
matching. -/
def matchNodes (l r : XTree) (lp rp : Path) (dt : DistTable) (m : Matching) :
    DistTable × Matching :=
  if l.sigF ≠ r.sigF then (dt, m)
  else if l.hashF = r.hashF then (dtSet dt (lp, rp) 0, mcmAdd m (lp, rp))
  else if l.children = [] ∧ r.children = [] then (dtSet dt (lp, rp) 1, m)
  else if l.children = [] then (dtSet dt (lp, rp) (r.children.length : Int), m)
  else if r.children = [] then (dtSet dt (lp, rp) (l.children.length : Int), m)
  else
    let gf := greedyFold (sortCPs (childCosts l r lp rp dt)) [] [] 0 0
    let dist := gf.1 + (l.children.length : Int) + (r.children.length : Int) - 2 * gf.2
    (dtSet dt (lp, rp) dist, m)

/-! ### The matcher driver (`xdiff.Compare`'s nested walk)

Both walks use the same capped stack as `Prepare`, but `Compare` discards
the boolean result of `Push` (`leftS.Push(l)` / `rightS.Push(r)` as bare
statements), so a failed push silently drops the node instead of
erroring. -/

/-- A push whose failure is ignored (`Stack.Push` with the result
discarded): on a full stack the node is simply not pushed. -/
def pushCap (s : List Path) (p : Path) : List Path :=
  if s.length = maxStackSize then s else p :: s

/-- The inner (right-tree) walk; fires `match(leftPeek, rightPeek)` at every
right finalisation.  Returns the tables and the persistent
`rightLastVisited`. -/
def innerLoop (lt rt : XTree) (lpk : Path) :
    Nat → List Path → Option Path → Option Path → DistTable → Matching →
    DistTable × Matching × Option Path
  | 0, _, _, rlv, dt, m => (dt, m, rlv)
  | fuel + 1, rstack, r, rlv, dt, m =>
    match r with
    | some rp => innerLoop lt rt lpk fuel (pushCap rstack rp) (firstChildPath rt rp) rlv dt m
    | none =>
      match rstack with
      | [] => (dt, m, rlv)
      | rpk :: rest =>
        match nextSiblingPath rt rpk with
        | some sib =>
          if rlv ≠ some sib then innerLoop lt rt lpk fuel rstack (some sib) rlv dt m
          else
            let res := matchNodes (lt.at lpk) (rt.at rpk) lpk rpk dt m
            innerLoop lt rt lpk fuel rest none (some rpk) res.1 res.2
        | none =>
          let res := matchNodes (lt.at lpk) (rt.at rpk) lpk rpk dt m
          innerLoop lt rt lpk fuel rest none (some rpk) res.1 res.2

/-- The outer (left-tree) walk; at every left finalisation it runs the full
inner walk from the right root. -/
def outerLoop (lt rt : XTree) :
    Nat → List Path → Option Path → Option Path → Option Path → DistTable →
    Matching → DistTable × Matching
  | 0, _, _, _, _, dt, m => (dt, m)
  | fuel + 1, lstack, l, llv, rlv, dt, m =>
    match l with
    | some lp => outerLoop lt rt fuel (pushCap lstack lp) (firstChildPath lt lp) llv rlv dt m
    | none =>
      match lstack with
      | [] => (dt, m)
      | lpk :: rest =>
        match nextSiblingPath lt lpk with
        | some sib =>
          if llv ≠ some sib then outerLoop lt rt fuel lstack (some sib) llv rlv dt m
          else
            let res := innerLoop lt rt lpk (3 * rt.sz + 2) [] (some []) rlv dt m
            outerLoop lt rt fuel rest none (some lpk) res.2.2 res.1 res.2.1
        | none =>
          let res := innerLoop lt rt lpk (3 * rt.sz + 2) [] (some []) rlv dt m
          outerLoop lt rt fuel rest none (some lpk) res.2.2 res.1 res.2.1

/-- Append a cost pair to its signature group (global assignment phase). -/
def groupAddCP (g : List (List Nat × List CostPair)) (key : List Nat)
    (v : CostPair) : List (List Nat × List CostPair) :=
  match g with
  | [] => [(key, [v])]
  | e :: rest =>
    if e.1 = key then (e.1, e.2 ++ [v]) :: rest else e :: groupAddCP rest key v

/-- Group all recorded distances by the left node's signature. -/
def costBySig (lt : XTree) (dt : DistTable) : List (List Nat × List CostPair) :=
  dt.foldl (fun g e => groupAddCP g (lt.at e.1.1).sigF ⟨e.1.1, e.1.2, e.2⟩) []

/-- The table-building phase of `Compare` on the two (reduced) trees: the
initial root `Add`, the nested post-order matching walk, then the global
per-signature cost-sorted assignment. -/
def compareTables (lt rt : XTree) : DistTable × Matching :=
  let m0 := mcmAdd [] ([], [])
  let res := outerLoop lt rt (3 * lt.sz + 2) [] (some []) none none [] m0
  let m' := (costBySig lt res.1).foldl
    (fun acc e => (sortCPs e.2).foldl (fun a c => mcmAdd a (c.left, c.right)) acc)
    res.2
  (res.1, m')

/-! ### Edit script generation -/

/-- Edit operations (Go `Operation`, `Insert = iota + 1`). -/
inductive Operation where
  | Insert
  | Update
  | Delete
  | InsertSubtree
  | DeleteSubtree
deriving DecidableEq

/-- The numeric value of the Go constant. -/
def Operation.goVal : Operation → Nat
  | .Insert => 1
  | .Update => 2
  | .Delete => 3
  | .InsertSubtree => 4
  | .DeleteSubtree => 5

/-- A delta over path-identified nodes (`Subject`/`Object` are `*Node`
pointers in Go; `none` models a nil object). -/
structure Delta where
  op : Operation
  subject : Path
  object : Option Path
deriving DecidableEq

/-- `n.Parent` as a path. -/
def parentPath (p : Path) : Option Path :=
  if p = [] then none else some p.dropLast

/-- The second loop of `editScript`: insert deltas for unmatched right
children. -/
def insDeltas (rs : List XTree) (rp : Path) (j : Nat) (m : Matching) : List Delta :=
  match rs with
  | [] => []
  | rc :: rest =>
    (if hasRightM m (rp ++ [j]) then []
     else if rc.children = [] then [⟨.Insert, rp ++ [j], some rp⟩]
     else [⟨.InsertSubtree, rp ++ [j], some rp⟩])
    ++ insDeltas rest rp (j + 1) m

mutual
/-- `xdiff.editScript` on a matched pair (recursive in the source too). -/
def editScript (l r : XTree) (lp rp : Path) (m : Matching) : List Delta :=
  match l, r with
  | .node _ cls, .node _ crs =>
    if (lp, rp) ∈ m then
      esL cls crs lp rp 0 m ++ insDeltas crs rp 0 m
    else
      [⟨.DeleteSubtree, lp, parentPath lp⟩, ⟨.InsertSubtree, rp, parentPath lp⟩]
termination_by sizeOf l + sizeOf r

/-- Loop over the left children (with delete deltas for unmatched ones). -/
def esL (ls rs : List XTree) (lp rp : Path) (i : Nat) (m : Matching) : List Delta :=
  match ls with
  | [] => []
  | lc :: rest =>
    esR lc rs lp rp i 0 m
    ++ (if hasLeftM m (lp ++ [i]) then []
        else if lc.children = [] then [⟨.Delete, lp ++ [i], some lp⟩]
        else [⟨.DeleteSubtree, lp ++ [i], some lp⟩])
    ++ esL rest rs lp rp (i + 1) m
termination_by sizeOf ls + sizeOf rs

/-- Inner loop over the right children for a fixed left child. -/
def esR (lc : XTree) (rs : List XTree) (lp rp : Path) (i j : Nat) (m : Matching) :
    List Delta :=
  match rs with
  | [] => []
  | rc :: rest =>
    (if (lp ++ [i], rp ++ [j]) ∈ m then
       if lc.children = [] ∧ rc.children = [] then
         if lc.hashF = rc.hashF then []
         else [⟨.Update, lp ++ [i], some (rp ++ [j])⟩]
       else editScript lc rc (lp ++ [i]) (rp ++ [j]) m
     else [])
    ++ esR lc rest lp rp i (j + 1) m
termination_by sizeOf lc + sizeOf rs
end

/-- `xdiff.Compare`: the hash shortcut, the reducer, the matcher, and the
edit script; the error result is `nil` on every return path of the
source. -/
def Compare (l r : XTree) : List Delta × Option Unit :=
  if l.hashF = r.hashF then ([], none)
  else
    let red := reduceMatchingSpace l r
    let tm := compareTables red.1 red.2
    (editScript red.1 red.2 [] [] tm.2, none)

/-! ### Plain-text encoders

Two variants exist in the repository.  `TextEncoder.Encode` (the current
one, matching the `Delta{Operation, Subject, Object}` type): prints
`No difference.` for an empty list, an `Update('s'->'o')` line for Update
deltas (with `continue`) and an `Op('s')` line otherwise.
`plainTextEncoder.Encode` in `encoder.go` (an older variant over
`Delta{Op, Node, Update}`): no empty-list marker, and the Update branch
lacks the `continue`, so Update deltas produce two lines. -/

/-- ASCII bytes of the stringer name of an operation. -/
def Operation.nameBytes : Operation → List Nat
  | .Insert => [73, 110, 115, 101, 114, 116]
  | .Update => [85, 112, 100, 97, 116, 101]
  | .Delete => [68, 101, 108, 101, 116, 101]
  | .InsertSubtree => [73, 110, 115, 101, 114, 116, 83, 117, 98, 116, 114, 101, 101]
  | .DeleteSubtree => [68, 101, 108, 101, 116, 101, 83, 117, 98, 116, 114, 101, 101]

def hexDigit (d : Nat) : Nat := if d < 10 then 48 + d else 87 + d

/-- `hex.EncodeToString` of one byte. -/
def hexByte (b : Nat) : List Nat := [hexDigit (b / 16 % 16), hexDigit (b % 16)]

/-- `strings.Replace(value, "\n", "\\n", -1)`. -/
def escapeNL (v : List Nat) : List Nat :=
  v.flatMap fun b => if b = 10 then [92, 110] else [b]

/-- The truncated hex hash of `Node.String`: empty stays empty, otherwise
the first six hex characters.  (Go slices `hash[:6]` and would panic on a
hash of one or two bytes; unreachable for the 20-byte SHA-1 hashes.) -/
def hash6 (h : List Nat) : List Nat :=
  let hx := h.flatMap hexByte
  if hx = [] then [] else hx.take 6

/-- `Node.String`: `(<Type> n:<name> v:<value, newlines escaped> s:<sig>
h:<hex hash prefix>)`. -/
def nodeString (t : XTree) : List Nat :=
  [40] ++ t.data.type.tag ++ [32, 110, 58] ++ t.data.name ++ [32, 118, 58]
    ++ escapeNL t.data.value ++ [32, 115, 58] ++ t.data.sig ++ [32, 104, 58]
    ++ hash6 t.data.hash ++ [41]

/-- An encoder-side delta carrying the actual nodes (`Subject` / `Object`
are node pointers in Go; `none` models a nil `Object`). -/
structure EDelta where
  op : Operation
  subject : XTree
  object : Option XTree
deriving DecidableEq

/-- Rendering of a possibly-nil node pointer.  For `none` (a nil `*Node`)
`fmt` recovers the `String` panic and prints an error marker whose exact
bytes are not modelled; no script-generated Update delta has a nil
object. -/
def renderNode : Option XTree → List Nat
  | some n => nodeString n
  | none => []

/-- `"No difference.\n"`. -/
def noDiffBytes : List Nat :=
  [78, 111, 32, 100, 105, 102, 102, 101, 114, 101, 110, 99, 101, 46, 10]

/-- `Update('subject'->'object')` plus newline. -/
def updLine (d : EDelta) : List Nat :=
  d.op.nameBytes ++ [40, 39] ++ nodeString d.subject ++ [39, 45, 62, 39]
    ++ renderNode d.object ++ [39, 41, 10]

/-- `<Op>('subject')` plus newline. -/
def stdLine (d : EDelta) : List Nat :=
  d.op.nameBytes ++ [40, 39] ++ nodeString d.subject ++ [39, 41, 10]

/-- The bytes `TextEncoder.Encode` writes for one delta. -/
def lineOf (d : EDelta) : List Nat :=
  if d.op = .Update then updLine d else stdLine d

/-- The write loop of `TextEncoder.Encode` (`acc` = bytes written so far). -/
def textEncodeLoop : List EDelta → List Nat → List Nat
  | [], acc => acc
  | d :: ds, acc => textEncodeLoop ds (acc ++ lineOf d)

/-- `TextEncoder.Encode`: the empty-list marker, then one line per delta. -/
def TextEncode (deltas : List EDelta) : List Nat :=
  textEncodeLoop deltas (if deltas.length = 0 then noDiffBytes else [])

/-- The older delta shape of `encoder.go` (`Op`, `Node`, `Update`). -/
structure PDelta where
  op : Operation
  node : XTree
  upd : Option XTree
deriving DecidableEq

def pUpdLine (d : PDelta) : List Nat :=
  d.op.nameBytes ++ [40, 39] ++ nodeString d.node ++ [39, 45, 62, 39]
    ++ renderNode d.upd ++ [39, 41, 10]

def pStdLine (d : PDelta) : List Nat :=
  d.op.nameBytes ++ [40, 39] ++ nodeString d.node ++ [39, 41, 10]

/-- The write loop of `plainTextEncoder.Encode`: the Update branch has no
`continue`, so an Update delta writes its arrow line and then also the
plain line. -/
def plainTextEncodeLoop : List PDelta → List Nat → List Nat
  | [], acc => acc
  | d :: ds, acc =>
    plainTextEncodeLoop ds
      (acc ++ (if d.op = .Update then pUpdLine d else []) ++ pStdLine d)

/-- `plainTextEncoder.Encode` of `encoder.go` (no empty-list marker). -/
def PlainTextEncode (deltas : List PDelta) : List Nat :=
  plainTextEncodeLoop deltas []

/-! ### The pointer heap model (`Node.AppendChild` / `Node.Remove`)

The sibling-link claims are about the pointer structure itself, so here
nodes are heap identifiers and the four structural pointers are explicit.
A Go nil-pointer dereference (only possible on nodes that were never
appended anywhere) is modelled as a no-op branch; the theorems' hypotheses
restrict to well-formed child lists where those branches are live exactly
as in Go. -/

/-- The four structural pointers of an `xtree.Node`. -/
structure NodeRec where
  parent : Option Nat
  firstChild : Option Nat
  nextSibling : Option Nat
  prevSiblingCyclic : Option Nat
deriving DecidableEq

def Heap := Nat → NodeRec

def hSet (h : Heap) (i : Nat) (v : NodeRec) : Heap :=
  fun j => if j = i then v else h j

/-- `Node.LastChild`: `n.FirstChild.PrevSiblingCyclic` (nil for a node
without children). -/
def lastChild (h : Heap) (n : Nat) : Option Nat :=
  match (h n).firstChild with
  | none => none
  | some fc => (h fc).prevSiblingCyclic

/-- `Node.AppendChild`, statement by statement (pointer reads are
re-evaluated against the current heap exactly as in Go). -/
def appendChild (h : Heap) (n child : Nat) : Heap :=
  let h' :=
    match (h n).firstChild with
    | none =>
      let h1 := hSet h n { h n with firstChild := some child }
      hSet h1 child { h1 child with prevSiblingCyclic := some child }
    | some _ =>
      let h1 := hSet h child { h child with prevSiblingCyclic := lastChild h n }
      let h2 :=
        match lastChild h1 n with
        | some lc => hSet h1 lc { h1 lc with nextSibling := some child }
        | none => h1
      match (h2 n).firstChild with
      | some fc => hSet h2 fc { h2 fc with prevSiblingCyclic := some child }
      | none => h2
  hSet h' child { h' child with parent := some n }

/-- `Node.Remove`, statement by statement. -/
def removeNode (h : Heap) (n : Nat) : Heap :=
  let h1 :=
    match (h n).parent with
    | some p =>
      if (h p).firstChild = some n then
        hSet h p { h p with firstChild := (h n).nextSibling }
      else h
    | none => h
  let h2 :=
    match (h1 n).nextSibling with
    | some ns => hSet h1 ns { h1 ns with prevSiblingCyclic := (h1 n).prevSiblingCyclic }
    | none => h1
  let h3 :=
    match (h2 n).prevSiblingCyclic with
    | some pv =>
      if (h2 pv).nextSibling = some n then
        hSet h2 pv { h2 pv with nextSibling := (h2 n).nextSibling }
      else h2
    | none => h2
  hSet h3 n { h3 n with nextSibling := none, prevSiblingCyclic := none, parent := none }

/-- The forward sibling chain: consecutive `NextSibling` links, the last
child's `NextSibling` nil. -/
def nextOkB (h : Heap) : List Nat → Bool
  | [] => true
  | [a] => decide ((h a).nextSibling = none)
  | a :: b :: t => decide ((h a).nextSibling = some b) && nextOkB h (b :: t)

/-- The cyclic previous-sibling chain: each child's `PrevSiblingCyclic`
points to the element before it, the head's to `pv`. -/
def prevOkB (h : Heap) (pv : Nat) : List Nat → Bool
  | [] => true
  | a :: t => decide ((h a).prevSiblingCyclic = some pv) && prevOkB h a t

def parentsOkB (h : Heap) (p : Nat) (cs : List Nat) : Bool :=
  cs.all fun c => decide ((h c).parent = some p)

/-- The sibling-list invariant of the node model: `p.FirstChild` heads the
list, `NextSibling` links it in order ending in nil, the first child's
cyclic previous-sibling link points to the last child which closes the
cycle, every child's parent is `p`, and all the nodes are distinct. -/
def wfChildren (h : Heap) (p : Nat) (cs : List Nat) : Bool :=
  decide ((h p).firstChild = cs.head?) && nextOkB h cs &&
    (match cs.getLast? with
     | some lst => prevOkB h lst cs
     | none => true) &&
    parentsOkB h p cs && decide ((p :: cs).Nodup)

/-! ## Shared helper lemmas -/

/-- Every return path of `Compare` pairs the delta list with a `nil`
error. -/
theorem compare_snd_none (l r : XTree) : (Compare l r).2 = none := by
  unfold Compare
  split <;> rfl

/-- The write loop of `TextEncoder.Encode` appends one line per delta. -/
theorem textEncodeLoop_eq : ∀ (ds : List EDelta) (acc : List Nat),
    textEncodeLoop ds acc = acc ++ (ds.map lineOf).flatten
  | [], acc => by simp [textEncodeLoop]
  | d :: ds, acc => by
    simp [textEncodeLoop, textEncodeLoop_eq ds, List.append_assoc]

/-- The write loop of `plainTextEncoder.Encode`. -/
theorem plainTextEncodeLoop_eq : ∀ (ds : List PDelta) (acc : List Nat),
    plainTextEncodeLoop ds acc =
      acc ++ (ds.map fun d =>
        (if d.op = .Update then pUpdLine d else []) ++ pStdLine d).flatten
  | [], acc => by simp [plainTextEncodeLoop]
  | d :: ds, acc => by
    simp [plainTextEncodeLoop, plainTextEncodeLoop_eq ds, List.append_assoc]

/-! ## C10 -/

/-- C10: `Compare` always returns a `nil` error together with its delta
list: every return site of the source pairs the result with `nil`, and
`reduceMatchingSpace`, `match` and `editScript` have no error results at
all (witnessed by their embedded types). -/
theorem C10_compare_never_errors : ∀ l r : XTree, (Compare l r).2 = none :=
  fun l r => compare_snd_none l r

/-! ## C4 -/

/-- C4: for every tree the Preparer has (successfully) run on, comparing
the tree with itself yields the empty delta list and no error: the
byte-equal root hashes short-circuit `Compare`. -/
theorem C4_compare_self_empty (digest : List Nat → List Nat) (t u : XTree)
    (_ : Prepare digest t = some (.ok u)) : Compare u u = ([], none) := by
  unfold Compare
  simp

/-- Concrete digest used by witnesses: length of the input followed by its
bytes truncated to 4. -/
def d0 : List Nat → List Nat := fun bs => bs.length % 256 :: bs.take 4

/-- A two-node document used by witnesses. -/
def tSmall : XTree :=
  .node ⟨.Document, [], [], [], []⟩ [.node ⟨.Element, [114], [], [], []⟩ []]

theorem C4_witness :
    Compare (prepR d0 [] tSmall) (prepR d0 [] tSmall) = ([], none) :=
  C4_compare_self_empty d0 tSmall (prepR d0 [] tSmall) rfl

/-! ## C9 -/

/-- C9 counterexample.  The claim, read against the cited
`plainTextEncoder.Encode` of `encoder.go`, fails at two concrete inputs:
the empty delta list produces no output at all (not the `No difference.`
line), and a single Update delta produces the arrow line *and* a plain
line (the branch lacks a `continue`), not exactly one line. -/
theorem C9_counterexample :
    PlainTextEncode [] ≠ noDiffBytes ∧
    PlainTextEncode [⟨.Update, dummyNode, some dummyNode⟩] ≠
      pUpdLine ⟨.Update, dummyNode, some dummyNode⟩ := by
  constructor
  · decide
  · decide

/-- C9 amended: the current plain-text encoder (`TextEncoder.Encode`)
behaves exactly as claimed — `No difference.` for the empty list, otherwise
one line per delta, `Update('subject'->'object')` for Update deltas and
`<Op>('subject')` for the rest; the older `plainTextEncoder.Encode` of
`encoder.go` instead writes nothing for the empty list and writes the
plain line in addition to the arrow line for every Update delta. -/
theorem C9_amended_encoders :
    (∀ ds : List EDelta,
      TextEncode ds = if ds = [] then noDiffBytes else (ds.map lineOf).flatten) ∧
    (∀ d : EDelta, d.op = .Update → ∀ o, d.object = some o →
      lineOf d = d.op.nameBytes ++ [40, 39] ++ nodeString d.subject
        ++ [39, 45, 62, 39] ++ nodeString o ++ [39, 41, 10]) ∧
    (∀ d : EDelta, d.op ≠ .Update →
      lineOf d = d.op.nameBytes ++ [40, 39] ++ nodeString d.subject ++ [39, 41, 10]) ∧
    (∀ ds : List PDelta,
      PlainTextEncode ds = (ds.map fun d =>
        (if d.op = .Update then pUpdLine d else []) ++ pStdLine d).flatten) := by
  refine ⟨fun ds => ?_, fun d hop o hobj => ?_, fun d hop => ?_, fun ds => ?_⟩
  · unfold TextEncode
    rw [textEncodeLoop_eq]
    rcases ds with _ | ⟨d, ds⟩ <;> simp
  · simp [lineOf, hop, updLine, renderNode, hobj]
  · simp [lineOf, hop, stdLine]
  · unfold PlainTextEncode
    rw [plainTextEncodeLoop_eq]
    simp

theorem C9_witness :
    lineOf ⟨.Update, dummyNode, some dummyNode⟩ =
      Operation.Update.nameBytes ++ [40, 39] ++ nodeString dummyNode
        ++ [39, 45, 62, 39] ++ nodeString dummyNode ++ [39, 41, 10] ∧
    lineOf ⟨.Delete, dummyNode, none⟩ =
      Operation.Delete.nameBytes ++ [40, 39] ++ nodeString dummyNode ++ [39, 41, 10] :=
  ⟨C9_amended_encoders.2.1 ⟨.Update, dummyNode, some dummyNode⟩ rfl dummyNode rfl,
   C9_amended_encoders.2.2.1 ⟨.Delete, dummyNode, none⟩ (by decide)⟩

/-! ## C1 -/

/-- The greedy loop accumulates exactly the cost sum and the count of the
accepted pairs. -/
theorem greedyFold_eq : ∀ (cs : List CostPair) (ul ur : List Path) (d m : Int),
    greedyFold cs ul ur d m =
      (d + ((greedyPick cs ul ur).map CostPair.cost).sum,
       m + ((greedyPick cs ul ur).length : Int))
  | [], ul, ur, d, m => by simp [greedyFold, greedyPick]
  | c :: rest, ul, ur, d, m => by
    by_cases h1 : c.left ∈ ul
    · simp only [greedyFold, greedyPick, if_pos h1]
      exact greedyFold_eq rest ul ur d m
    · by_cases h2 : c.right ∈ ur
      · simp only [greedyFold, greedyPick, if_neg h1, if_pos h2]
        exact greedyFold_eq rest ul ur d m
      · simp only [greedyFold, greedyPick, if_neg h1, if_neg h2]
        rw [greedyFold_eq rest]
        simp only [List.map_cons, List.sum_cons, List.length_cons, Prod.mk.injEq]
        constructor <;> push_cast <;> ring

/-- C1: the full case analysis of `match` on a pair of nodes, as the
specification states it: different signatures record nothing; byte-equal
hashes record distance 0 and add the pair to the matching (via the
matching's `Add`); leaf/leaf records 1; leaf/non-leaf records the other
side's child count; and non-leaf/non-leaf records the cost sum of the
greedily accepted same-signature child pairs plus
`leftCount + rightCount - 2*mapped`. -/
theorem C1_match_cases (l r : XTree) (lp rp : Path) (dt : DistTable) (m : Matching) :
    (l.sigF ≠ r.sigF → matchNodes l r lp rp dt m = (dt, m)) ∧
    (l.sigF = r.sigF → l.hashF = r.hashF →
      matchNodes l r lp rp dt m = (dtSet dt (lp, rp) 0, mcmAdd m (lp, rp))) ∧
    (l.sigF = r.sigF → l.hashF ≠ r.hashF → l.children = [] → r.children = [] →
      matchNodes l r lp rp dt m = (dtSet dt (lp, rp) 1, m)) ∧
    (l.sigF = r.sigF → l.hashF ≠ r.hashF → l.children = [] → r.children ≠ [] →
      matchNodes l r lp rp dt m = (dtSet dt (lp, rp) (r.children.length : Int), m)) ∧
    (l.sigF = r.sigF → l.hashF ≠ r.hashF → l.children ≠ [] → r.children = [] →
      matchNodes l r lp rp dt m = (dtSet dt (lp, rp) (l.children.length : Int), m)) ∧
    (l.sigF = r.sigF → l.hashF ≠ r.hashF → l.children ≠ [] → r.children ≠ [] →
      matchNodes l r lp rp dt m =
        (dtSet dt (lp, rp)
          (((greedyPick (sortCPs (childCosts l r lp rp dt)) [] []).map
              CostPair.cost).sum
            + (l.children.length : Int) + (r.children.length : Int)
            - 2 * ((greedyPick (sortCPs (childCosts l r lp rp dt)) [] []).length : Int)),
         m)) := by
  refine ⟨fun h => ?_, fun hs hh => ?_, fun hs hh hl hr => ?_,
    fun hs hh hl hr => ?_, fun hs hh hl hr => ?_, fun hs hh hl hr => ?_⟩
  · simp [matchNodes, h]
  · simp [matchNodes, hs, hh]
  · simp [matchNodes, hs, hh, hl, hr]
  · simp [matchNodes, hs, hh, hl, hr]
  · simp [matchNodes, hs, hh, hl, hr]
  · simp only [matchNodes, hs, hh, hl, hr, ne_eq, not_true_eq_false, if_false,
      not_false_eq_true, and_false, false_and, if_neg]
    rw [greedyFold_eq]
    dsimp only
    have : (0 : Int) + ((greedyPick (sortCPs (childCosts l r lp rp dt)) [] []).map
          CostPair.cost).sum
        + (l.children.length : Int) + (r.children.length : Int)
        - 2 * ((0 : Int) + ((greedyPick (sortCPs (childCosts l r lp rp dt)) [] []).length : Int))
      = ((greedyPick (sortCPs (childCosts l r lp rp dt)) [] []).map CostPair.cost).sum
        + (l.children.length : Int) + (r.children.length : Int)
        - 2 * ((greedyPick (sortCPs (childCosts l r lp rp dt)) [] []).length : Int) := by
      ring
    rw [this]

/-- A leaf data node pair with equal signatures and different hashes. -/
def lLeaf : XTree := .node ⟨.Data, [], [97], [9], [2]⟩ []

def rLeaf : XTree := .node ⟨.Data, [], [98], [9], [3]⟩ []

theorem C1_witness :
    matchNodes lLeaf rLeaf [] [] [] [] = (dtSet [] ([], []) 1, []) :=
  (C1_match_cases lLeaf rLeaf [] [] [] []).2.2.1 rfl (by decide) rfl rfl

/-! ## C2 -/

theorem mem_minsert {m : Matching} {pr x : Path × Path} :
    x ∈ minsert m pr ↔ x = pr ∨ x ∈ m := by
  unfold minsert
  split
  · constructor
    · exact fun h => Or.inr h
    · rintro (rfl | h) <;> assumption
  · simp [List.mem_cons]

theorem mem_foldl_minsert :
    ∀ (l : List (Path × Path)) (m : Matching) (x : Path × Path),
      x ∈ l.foldl minsert m ↔ x ∈ l ∨ x ∈ m
  | [], m, x => by simp
  | p :: l, m, x => by
    rw [List.foldl_cons, mem_foldl_minsert l, mem_minsert]
    simp [List.mem_cons]
    tauto

theorem ancPairsRev_nil_left (b : Path) : ancPairsRev [] b = [] := by
  cases b <;> rfl

theorem ancPairsRev_nil_right (a : Path) : ancPairsRev a [] = [] := by
  cases a <;> rfl

theorem ancPairs_cons {a b : Path} (ha : a ≠ []) (hb : b ≠ []) :
    ancPairs a b = (a.dropLast, b.dropLast) :: ancPairs a.dropLast b.dropLast := by
  obtain ⟨x, xs, hx⟩ : ∃ x xs, a.reverse = x :: xs := by
    cases h : a.reverse with
    | nil =>
      exact absurd (by simpa using congrArg List.reverse h) ha
    | cons x xs => exact ⟨x, xs, rfl⟩
  obtain ⟨y, ys, hy⟩ : ∃ y ys, b.reverse = y :: ys := by
    cases h : b.reverse with
    | nil =>
      exact absurd (by simpa using congrArg List.reverse h) hb
    | cons y ys => exact ⟨y, ys, rfl⟩
  have hdx : a.dropLast = xs.reverse := by
    have h1 : a = xs.reverse ++ [x] := by
      have := congrArg List.reverse hx
      simpa using this
    rw [h1, List.dropLast_concat]
  have hdy : b.dropLast = ys.reverse := by
    have h1 : b = ys.reverse ++ [y] := by
      have := congrArg List.reverse hy
      simpa using this
    rw [h1, List.dropLast_concat]
  unfold ancPairs
  rw [hx, hy]
  show (xs.reverse, ys.reverse) :: ancPairsRev xs ys = _
  rw [hdx, hdy]
  show _ = (xs.reverse, ys.reverse) ::
    ancPairsRev xs.reverse.reverse ys.reverse.reverse
  rw [List.reverse_reverse, List.reverse_reverse]

/-- The ancestor chain inserted by `Add` is itself closed under taking
parents. -/
theorem ancPairs_closed (a b : Path) :
    ∀ x ∈ ancPairs a b, x.1 ≠ [] → x.2 ≠ [] →
      (x.1.dropLast, x.2.dropLast) ∈ ancPairs a b := by
  by_cases ha : a = []
  · subst ha
    intro x hx
    simp [ancPairs, ancPairsRev_nil_left] at hx
  · by_cases hb : b = []
    · subst hb
      intro x hx
      simp [ancPairs, ancPairsRev_nil_right] at hx
    · intro x hx h1 h2
      rw [ancPairs_cons ha hb] at hx ⊢
      rcases List.mem_cons.mp hx with rfl | hx
      · by_cases hda : a.dropLast = []
        · exact absurd (by simpa using h1) (by simpa using hda)
        · by_cases hdb : b.dropLast = []
          · exact absurd (by simpa using h2) (by simpa using hdb)
          · exact List.mem_cons_of_mem _
              (by rw [ancPairs_cons hda hdb]; exact List.mem_cons_self _ _)
      · exact List.mem_cons_of_mem _ (ancPairs_closed a.dropLast b.dropLast x hx h1 h2)
termination_by a.length
decreasing_by
  simp only [List.length_dropLast]
  have : 0 < a.length := List.length_pos.mpr ha
  omega

/-- A matching is ancestor-closed if every member pair's simultaneous
parent pair is also a member. -/
def ancClosed (m : Matching) : Prop :=
  ∀ pr ∈ m, pr.1 ≠ [] → pr.2 ≠ [] → (pr.1.dropLast, pr.2.dropLast) ∈ m

theorem mcmAdd_closed {m : Matching} (h : ancClosed m) (pr : Path × Path) :
    ancClosed (mcmAdd m pr) := by
  unfold mcmAdd
  split
  · exact h
  · intro x hx h1 h2
    rw [mem_foldl_minsert] at hx ⊢
    rcases hx with hx | hx
    · left
      rcases List.mem_cons.mp hx with rfl | hx
      · by_cases hda : x.1 = []
        · exact absurd h1 (by simp [hda])
        · by_cases hdb : x.2 = []
          · exact absurd h2 (by simp [hdb])
          · exact List.mem_cons_of_mem _
              (by rw [ancPairs_cons hda hdb]; exact List.mem_cons_self _ _)
      · exact List.mem_cons_of_mem _ (ancPairs_closed pr.1 pr.2 x hx h1 h2)
    · exact Or.inr (h x hx h1 h2)

theorem matchNodes_closed {m : Matching} (l r : XTree) (lp rp : Path)
    (dt : DistTable) (h : ancClosed m) :
    ancClosed (matchNodes l r lp rp dt m).2 := by
  unfold matchNodes
  split_ifs <;> first
    | exact h
    | exact mcmAdd_closed h _

theorem innerLoop_closed (lt rt : XTree) (lpk : Path) :
    ∀ (fuel : Nat) (rstack : List Path) (r rlv : Option Path) (dt : DistTable)
      (m : Matching), ancClosed m →
      ancClosed (innerLoop lt rt lpk fuel rstack r rlv dt m).2.1 := by
  intro fuel
  induction fuel with
  | zero =>
    intro rstack r rlv dt m h
    simpa [innerLoop] using h
  | succ n ih =>
    intro rstack r rlv dt m h
    cases r with
    | some rp =>
      simpa only [innerLoop] using ih _ _ _ _ _ h
    | none =>
      cases rstack with
      | nil => simpa [innerLoop] using h
      | cons rpk rest =>
        simp only [innerLoop]
        cases hns : nextSiblingPath rt rpk with
        | some sib =>
          by_cases hlv : rlv ≠ some sib
          · simpa only [if_pos hlv] using ih _ _ _ _ _ h
          · simpa only [if_neg hlv] using
              ih _ _ _ _ _ (matchNodes_closed _ _ _ _ _ h)
        | none =>
          exact ih _ _ _ _ _ (matchNodes_closed _ _ _ _ _ h)

theorem outerLoop_closed (lt rt : XTree) :
    ∀ (fuel : Nat) (lstack : List Path) (l llv rlv : Option Path)
      (dt : DistTable) (m : Matching), ancClosed m →
      ancClosed (outerLoop lt rt fuel lstack l llv rlv dt m).2 := by
  intro fuel
  induction fuel with
  | zero =>
    intro lstack l llv rlv dt m h
    simpa [outerLoop] using h
  | succ n ih =>
    intro lstack l llv rlv dt m h
    cases l with
    | some lp =>
      simpa only [outerLoop] using ih _ _ _ _ _ _ h
    | none =>
      cases lstack with
      | nil => simpa [outerLoop] using h
      | cons lpk rest =>
        simp only [outerLoop]
        cases hns : nextSiblingPath lt lpk with
        | some sib =>
          by_cases hlv : llv ≠ some sib
          · simpa only [if_pos hlv] using ih _ _ _ _ _ _ h
          · simpa only [if_neg hlv] using
              ih _ _ _ _ _ _ (innerLoop_closed lt rt lpk _ _ _ _ _ _ h)
        | none =>
          exact ih _ _ _ _ _ _ (innerLoop_closed lt rt lpk _ _ _ _ _ _ h)

theorem foldl_closed {α : Type} (f : Matching → α → Matching)
    (hf : ∀ m a, ancClosed m → ancClosed (f m a)) :
    ∀ (l : List α) (m : Matching), ancClosed m → ancClosed (l.foldl f m)
  | [], _, h => h
  | a :: l, m, h => foldl_closed f hf l (f m a) (hf m a h)

/-- The matching `Compare` builds is ancestor-closed: every insertion goes
through `Add`. -/
theorem compareTables_closed (lt rt : XTree) : ancClosed (compareTables lt rt).2 := by
  unfold compareTables
  dsimp only
  apply foldl_closed
  · intro m a hm
    apply foldl_closed
    · intro m' c hm'
      exact mcmAdd_closed hm' _
    · exact hm
  · apply outerLoop_closed
    apply mcmAdd_closed
    intro pr hpr
    simp at hpr

/-- Iterated `parent` (`dropLast`) on a path. -/
def dropLastIter : Nat → Path → Path
  | 0, p => p
  | k + 1, p => dropLastIter k p.dropLast

theorem dropLastIter_succ (k : Nat) (p : Path) :
    dropLastIter (k + 1) p = (dropLastIter k p).dropLast := by
  induction k generalizing p with
  | zero => rfl
  | succ n ih =>
    show dropLastIter (n + 1) p.dropLast = _
    rw [ih p.dropLast]
    rfl

theorem dropLastIter_length (k : Nat) (p : Path) :
    (dropLastIter k p).length = p.length - k := by
  induction k generalizing p with
  | zero => simp [dropLastIter]
  | succ n ih =>
    show (dropLastIter n p.dropLast).length = _
    rw [ih p.dropLast, List.length_dropLast]
    omega

/-- C2: for every pair in the matching produced by `Compare`'s matching
phase and every ancestor depth `k` at which both sides still have an
ancestor, the simultaneous `k`-th ancestor pair is in the matching too, up
to the two roots. -/
theorem C2_matching_ancestors (lt rt : XTree) :
    ∀ pr ∈ (compareTables lt rt).2, ∀ k : Nat,
      k ≤ pr.1.length → k ≤ pr.2.length →
      (dropLastIter k pr.1, dropLastIter k pr.2) ∈ (compareTables lt rt).2 := by
  intro pr hpr k
  induction k with
  | zero =>
    intro _ _
    simpa [dropLastIter] using hpr
  | succ n ih =>
    intro h1 h2
    have hmem := ih (by omega) (by omega)
    have hl1 : dropLastIter n pr.1 ≠ [] := by
      have := dropLastIter_length n pr.1
      intro hcon
      rw [hcon] at this
      simp at this
      omega
    have hl2 : dropLastIter n pr.2 ≠ [] := by
      have := dropLastIter_length n pr.2
      intro hcon
      rw [hcon] at this
      simp at this
      omega
    have := compareTables_closed lt rt _ hmem hl1 hl2
    rwa [dropLastIter_succ, dropLastIter_succ]

/-- Witness trees: two documents whose single element children share a
signature and a hash. -/
def ltW : XTree :=
  .node ⟨.Document, [], [], [47], [1]⟩ [.node ⟨.Element, [97], [], [5], [7]⟩ []]

def rtW : XTree :=
  .node ⟨.Document, [], [], [47], [2]⟩ [.node ⟨.Element, [97], [], [5], [7]⟩ []]

theorem C2_witness :
    (dropLastIter 1 [0], dropLastIter 1 [0]) ∈ (compareTables ltW rtW).2 :=
  C2_matching_ancestors ltW rtW ([0], [0]) (by decide) 1 (by decide) (by decide)

/-! ## C3 -/

/-- The reducer's action on one positional pair of children, written out as
the specification's policy: a candidate when both are Elements with equal
signatures and byte-equal hashes, a recursion when the hashes differ, and
untouched otherwise. -/
def reduceStep (x y : XTree) : XTree × XTree × Bool :=
  if x.data.type = .Element ∧ y.data.type = .Element ∧ x.sigF = y.sigF then
    if x.hashF = y.hashF then (x, y, true)
    else ((reduceMatchingSpace x y).1, (reduceMatchingSpace x y).2, false)
  else (x, y, false)

/-- The lockstep walk equals the positional (`zip`) map, with the longer
side's tail passed through untouched. -/
theorem reduceWalk_eq : ∀ ls rs : List XTree,
    reduceWalk ls rs =
      ((ls.zip rs).map fun p => reduceStep p.1 p.2,
       ls.drop rs.length, rs.drop ls.length)
  | [], rs => by simp [reduceWalk]
  | l :: ls, [] => by simp [reduceWalk]
  | l :: ls, r :: rs => by
    simp only [reduceWalk, reduceWalk_eq ls rs, List.zip_cons_cons, List.map_cons,
      List.length_cons, List.drop_succ_cons]
    rfl

/-- The children the reducer keeps, in the claim's terms: process the
positional pairs, then drop every candidate pair but the last. -/
def reduceSpecChildren (cls crs : List XTree) : List (XTree × XTree) :=
  let trips := (cls.zip crs).map fun p => reduceStep p.1 p.2
  dropCands trips (trips.countP (fun x => x.2.2) - 1)

/-- C3 amended: the reducer pairs the element children *positionally*
(both sibling lists are walked in lockstep, trailing children of the longer
list are not considered).  For each positional pair of Element children
with equal signatures it records a removal candidate on byte-equal hashes
and recurses otherwise, then detaches every candidate pair but the last
from both sides; pairs that are not both Element-typed with equal
signatures (attributes, text and other value-bearing children included)
pass through untouched. -/
theorem C3_amended_reducer :
    (∀ (dl : NodeData) (cls : List XTree) (dr : NodeData) (crs : List XTree),
      reduceMatchingSpace (.node dl cls) (.node dr crs) =
        (.node dl ((reduceSpecChildren cls crs).map (fun x => x.1) ++ cls.drop crs.length),
         .node dr ((reduceSpecChildren cls crs).map (fun x => x.2) ++ crs.drop cls.length))) ∧
    (∀ x y : XTree,
      ¬(x.data.type = .Element ∧ y.data.type = .Element ∧ x.sigF = y.sigF) →
      reduceStep x y = (x, y, false)) := by
  constructor
  · intro dl cls dr crs
    show (let w := reduceWalk cls crs
          let k := w.1.countP (fun x => x.2.2)
          let kept := dropCands w.1 (k - 1)
          ((.node dl (kept.map (fun x => x.1) ++ w.2.1),
            .node dr (kept.map (fun x => x.2) ++ w.2.2)) : XTree × XTree)) = _
    rw [reduceWalk_eq]
    rfl
  · intro x y h
    simp [reduceStep, h]

/-- Prepared counterexample trees: the left root's element children are
`a, b`, the right root's are `b, a` (identical subtrees, swapped order). -/
def redRawA : XTree := .node ⟨.Element, [97], [], [], []⟩ []

def redRawB : XTree := .node ⟨.Element, [98], [], [], []⟩ []

def redL : XTree := prepR d0 [] (.node ⟨.Document, [], [], [], []⟩ [redRawA, redRawB])

def redR : XTree := prepR d0 [] (.node ⟨.Document, [], [], [], []⟩ [redRawB, redRawA])

/-- C3 counterexample.  On these prepared trees the claim's reading — every
pair of element children (of the root pair) sharing a signature, hence the
cross-positional pairs `(a,a)` and `(b,b)`, is a removal candidate when
hash-equal, and all candidates but one get detached — demands that a child
be removed from each side.  The code's lockstep walk only forms the
mixed-signature positional pairs `(a,b)` and `(b,a)` and detaches
nothing. -/
theorem C3_counterexample :
    reduceMatchingSpace redL redR = (redL, redR) ∧
    redL.children.length = 2 ∧ redR.children.length = 2 ∧
    ((redL.at [0]).data.type = .Element ∧ (redR.at [1]).data.type = .Element ∧
      (redL.at [0]).sigF = (redR.at [1]).sigF ∧
      (redL.at [0]).hashF = (redR.at [1]).hashF) ∧
    ((redL.at [1]).data.type = .Element ∧ (redR.at [0]).data.type = .Element ∧
      (redL.at [1]).sigF = (redR.at [0]).sigF ∧
      (redL.at [1]).hashF = (redR.at [0]).hashF) ∧
    (redL.at [0]).sigF ≠ (redL.at [1]).sigF := by
  refine ⟨by decide, by decide, by decide, by decide, by decide, by decide⟩

theorem C3_witness :
    reduceStep (.node ⟨.Attribute, [97], [98], [3], [4]⟩ [])
        (.node ⟨.Attribute, [97], [98], [3], [4]⟩ []) =
      (.node ⟨.Attribute, [97], [98], [3], [4]⟩ [],
        .node ⟨.Attribute, [97], [98], [3], [4]⟩ [], false) :=
  C3_amended_reducer.2 (.node ⟨.Attribute, [97], [98], [3], [4]⟩ [])
    (.node ⟨.Attribute, [97], [98], [3], [4]⟩ []) (by decide)

/-! ## C7 -/

/-- An all-nil heap. -/
def h0 : Heap := fun _ => ⟨none, none, none, none⟩

/-- Parent `0` with children `1, 2` appended in order. -/
def hAB : Heap := appendChild (appendChild h0 0 1) 0 2

/-- Parent `0` with children `1, 2, 3` appended in order. -/
def hABC : Heap := appendChild hAB 0 3

/-- C7: `AppendChild` does establish the cyclic sibling invariant on every
append, and `Remove` re-establishes it when the removed node is the first
or a middle sibling — but NOT when it is the last of two or more siblings:
`Remove` fixes `NextSibling.PrevSiblingCyclic` and
`PrevSiblingCyclic.NextSibling` only, so after removing the last child the
first child's cyclic previous-sibling link still points at the detached
node instead of the new last child.  The removed node's parent link is
cleared as claimed. -/
theorem C7_remove_last_child_bug :
    wfChildren (appendChild h0 0 1) 0 [1] = true ∧
    wfChildren hAB 0 [1, 2] = true ∧
    wfChildren hABC 0 [1, 2, 3] = true ∧
    wfChildren (removeNode hABC 1) 0 [2, 3] = true ∧
    wfChildren (removeNode hABC 2) 0 [1, 3] = true ∧
    ((removeNode hAB 2) 2).parent = none ∧
    ((removeNode hAB 2) 1).prevSiblingCyclic = some 2 ∧
    wfChildren (removeNode hAB 2) 0 [1] = false ∧
    wfChildren (removeNode hABC 3) 0 [1, 2] = false := by
  refine ⟨by decide, by decide, by decide, by decide, by decide, by decide,
    by decide, by decide, by decide⟩

/-! ## C6: `/`-separated signature structure -/

theorem splitSep_ne_nil : ∀ s : List Nat, splitSep s ≠ []
  | [] => by simp [splitSep]
  | c :: rest => by
    simp only [splitSep]
    cases h : splitSep rest with
    | nil => simp
    | cons a t => by_cases hc : c = 47 <;> simp [hc]

theorem join_split : ∀ s : List Nat, joinSep (splitSep s) = s
  | [] => rfl
  | c :: rest => by
    have ih := join_split rest
    simp only [splitSep]
    cases h : splitSep rest with
    | nil => exact absurd h (splitSep_ne_nil rest)
    | cons a t =>
      rw [h] at ih
      by_cases hc : c = 47
      · subst hc
        simp only [if_pos rfl]
        show [] ++ 47 :: joinSep (a :: t) = 47 :: rest
        rw [ih]
        rfl
      · simp only [if_neg hc]
        cases t with
        | nil =>
          show c :: a = c :: rest
          have ha : a = rest := ih
          rw [ha]
        | cons b t' =>
          show (c :: a) ++ 47 :: joinSep (b :: t') = c :: rest
          have ha : a ++ 47 :: joinSep (b :: t') = rest := ih
          rw [← ha]
          rfl

theorem splitSep_noSep : ∀ s : List Nat, 47 ∉ s → splitSep s = [s]
  | [] => fun _ => rfl
  | c :: rest => fun h => by
    have hc : c ≠ 47 := fun hc => h (hc ▸ List.mem_cons_self c rest)
    have ih := splitSep_noSep rest (fun hm => h (List.mem_cons_of_mem c hm))
    simp [splitSep, ih, hc]

theorem splitSep_append : ∀ (x tag : List Nat), 47 ∉ tag →
    splitSep (x ++ 47 :: tag) = splitSep x ++ [tag]
  | [], tag, h => by
    show splitSep (47 :: tag) = [[]] ++ [tag]
    simp [splitSep, splitSep_noSep tag h]
  | c :: x, tag, h => by
    have ih := splitSep_append x tag h
    show splitSep (c :: (x ++ 47 :: tag)) = _
    simp only [splitSep, ih]
    cases hx : splitSep x with
    | nil => exact absurd hx (splitSep_ne_nil x)
    | cons a t => by_cases hc : c = 47 <;> simp [hc]

theorem strip_append_tag {tag : List Nat} (x : List Nat) (h : 47 ∉ tag) :
    stripLastSeg (x ++ 47 :: tag) = x := by
  unfold stripLastSeg
  rw [splitSep_append x tag h, List.dropLast_concat, join_split]

theorem joinSep_append : ∀ (A B : List (List Nat)), A ≠ [] → B ≠ [] →
    joinSep (A ++ B) = joinSep A ++ 47 :: joinSep B
  | [], _, hA, _ => absurd rfl hA
  | [a], B, _, hB => by
    cases B with
    | nil => exact absurd rfl hB
    | cons b B' => rfl
  | a :: a' :: A', B, _, hB => by
    have ih := joinSep_append (a' :: A') B (by simp) hB
    show a ++ 47 :: joinSep ((a' :: A') ++ B) = (a ++ 47 :: joinSep (a' :: A')) ++ 47 :: joinSep B
    rw [ih]
    simp

/-- Byte-string prefix test (`IsPrefix` as a boolean). -/
def isPfx : List Nat → List Nat → Bool
  | [], _ => true
  | _ :: _, [] => false
  | a :: as, b :: bs => a == b && isPfx as bs

theorem isPfx_append_self : ∀ x y : List Nat, isPfx x (x ++ y) = true
  | [], _ => rfl
  | c :: x, y => by
    show (c == c && isPfx x (x ++ y)) = true
    simp [isPfx_append_self x y]

theorem tag_noSep : ∀ nt : NodeType, 47 ∉ nt.tag := by
  intro nt
  cases nt <;> decide

theorem strip_join_tag (A : List (List Nat)) (tag : List Nat) (hA : A ≠ [])
    (htag : 47 ∉ tag) : stripLastSeg (joinSep (A ++ [tag])) = joinSep A := by
  rw [joinSep_append A [tag] hA (by simp)]
  exact strip_append_tag (joinSep A) htag

theorem prefix_of_join (A B : List (List Nat)) (hA : A ≠ []) (hB : B ≠ []) :
    isPfx (joinSep A) (joinSep (A ++ B)) = true := by
  rw [joinSep_append A B hA hB]
  exact isPfx_append_self _ _

/-- The one-step form of the (corrected) signature law: stripping the
trailing type-tag segment from the *parent's* signature yields a prefix of
the child's signature, whatever the names and types are. -/
theorem sigStep (ancP : List (List Nat)) (tp tn : NodeType) (np nn : List Nat) :
    isPfx (stripLastSeg (sigOf ancP tp np)) (sigOf (ancP ++ [np]) tn nn) = true := by
  cases ancP with
  | nil =>
    show isPfx (stripLastSeg [47]) (sigOf [np] tn nn) = true
    have h47 : stripLastSeg [47] = [] := by decide
    rw [h47]
    rfl
  | cons a ancP' =>
    have hcons : (a :: ancP' : List (List Nat)) ≠ [] := by simp
    by_cases hnp : np = []
    · subst hnp
      have hp : sigOf (a :: ancP') tp [] = joinSep ((a :: ancP') ++ [tp.tag]) := by
        simp [sigOf]
      rw [hp, strip_join_tag _ _ hcons (tag_noSep tp)]
      by_cases hnn : nn = []
      · subst hnn
        show isPfx (joinSep (a :: ancP')) (sigOf ((a :: ancP') ++ [[]]) tn []) = true
        have hc : sigOf ((a :: ancP') ++ [[]]) tn [] =
            joinSep ((a :: ancP') ++ ([[]] ++ [tn.tag])) := by
          simp [sigOf, List.append_assoc]
        rw [hc]
        exact prefix_of_join _ _ hcons (by simp)
      · have hc : sigOf ((a :: ancP') ++ [[]]) tn nn =
            joinSep ((a :: ancP') ++ ([[]] ++ [nn, tn.tag])) := by
          simp [sigOf, hnn, List.append_assoc]
        rw [hc]
        exact prefix_of_join _ _ hcons (by simp)
    · have hp : sigOf (a :: ancP') tp np =
          joinSep (((a :: ancP') ++ [np]) ++ [tp.tag]) := by
        simp [sigOf, hnp, List.append_assoc]
      rw [hp, strip_join_tag _ _ (by simp) (tag_noSep tp)]
      by_cases hnn : nn = []
      · have hc : sigOf ((a :: ancP') ++ [np]) tn [] =
            joinSep (((a :: ancP') ++ [np]) ++ [tn.tag]) := by
          simp [sigOf]
        subst hnn
        rw [hc]
        exact prefix_of_join _ _ (by simp) (by simp)
      · have hc : sigOf ((a :: ancP') ++ [np]) tn nn =
            joinSep (((a :: ancP') ++ [np]) ++ [nn, tn.tag]) := by
          simp [sigOf, hnn]
        rw [hc]
        exact prefix_of_join _ _ (by simp) (by simp)

theorem prepRL_get (digest : List Nat → List Nat) :
    ∀ (cs : List XTree) (anc : List (List Nat)) (i : Nat),
      (prepRL digest anc cs)[i]? = (cs[i]?).map (prepR digest anc)
  | [], _, i => by simp [prepRL]
  | c :: cs, anc, 0 => by simp [prepRL]
  | c :: cs, anc, i + 1 => by
    simp [prepRL, prepRL_get digest cs anc i]

mutual
theorem prepR_hashF (digest : List Nat → List Nat) :
    ∀ (t : XTree) (anc : List (List Nat)), (prepR digest anc t).hashF = hashR digest t
  | .node d cs, anc => by
    show digest (hashInput d (prepRL digest (anc ++ [d.name]) cs)) = _
    simp only [hashInput, hashR]
    rw [prepRL_hashF digest cs (anc ++ [d.name])]
theorem prepRL_hashF (digest : List Nat → List Nat) :
    ∀ (cs : List XTree) (anc : List (List Nat)),
      (prepRL digest anc cs).map XTree.hashF = hashRL digest cs
  | [], _ => rfl
  | c :: cs, anc => by
    simp only [prepRL, List.map_cons, hashRL]
    rw [prepR_hashF digest c anc, prepRL_hashF digest cs anc]
end

theorem sub_append : ∀ (p q : Path) (t : XTree),
    t.sub (p ++ q) = (t.sub p).bind fun s => s.sub q
  | [], q, t => by simp [XTree.sub]
  | i :: p, q, .node d cs => by
    simp only [List.cons_append, XTree.sub]
    cases h : cs[i]? with
    | none => rfl
    | some c => exact sub_append p q c

theorem sub_prepR (digest : List Nat → List Nat) :
    ∀ (p : Path) (t : XTree) (anc : List (List Nat)),
      (prepR digest anc t).sub p =
        (t.sub p).map fun s => prepR digest (anc ++ ancNames t p) s
  | [], .node d cs, anc => by
    show some (prepR digest anc (.node d cs)) = _
    simp [ancNames]
    rfl
  | i :: p, .node d cs, anc => by
    show (XTree.node _ (prepRL digest (anc ++ [d.name]) cs)).sub (i :: p) = _
    simp only [XTree.sub, ancNames]
    rw [prepRL_get]
    cases h : cs[i]? with
    | none => simp
    | some c =>
      simp only [h]
      show (prepR digest (anc ++ [d.name]) c).sub p =
        Option.map (fun s => prepR digest (anc ++ d.name :: ancNames c p) s) (c.sub p)
      rw [sub_prepR digest p c (anc ++ [d.name])]
      cases hc : c.sub p with
      | none => simp
      | some s => simp [List.append_assoc]

theorem ancNames_append : ∀ (x y : Path) (t q : XTree), t.sub x = some q →
    ancNames t (x ++ y) = ancNames t x ++ ancNames q y
  | [], y, .node d cs, q, h => by
    have h' : some (XTree.node d cs) = some q := h
    cases Option.some.inj h'
    simp [ancNames]
  | i :: x, y, .node d cs, q, h => by
    simp only [XTree.sub] at h
    cases hc : cs[i]? with
    | none =>
      rw [hc] at h
      simp at h
    | some c =>
      rw [hc] at h
      simp only [List.cons_append, ancNames, hc]
      show List.cons d.name (ancNames c (x ++ y)) = _
      rw [ancNames_append x y c q h]

theorem ancNames_ne_nil (t : XTree) (i : Nat) (p : Path) :
    ancNames t (i :: p) ≠ [] := by
  cases t with
  | node d cs =>
    simp only [ancNames]
    cases cs[i]? <;> simp

/-- C6 counterexample: on the prepared two-node document (root signature
`/`, child signature `/root/Element`-shaped), stripping the last
`/`-segment of the child's signature yields `/root`, which is *not* a
prefix of the parent's signature `/`. -/
theorem C6_counterexample :
    Prepare d0 tSmall = some (.ok (prepR d0 [] tSmall)) ∧
    ((prepR d0 [] tSmall).sub [0]).isSome = true ∧
    isPfx (stripLastSeg ((prepR d0 [] tSmall).at [0]).sigF)
      ((prepR d0 [] tSmall).at []).sigF = false :=
  ⟨rfl, by decide, by decide⟩

/-! ## C5: the iterative preparer computes the recursive hash

The iterative post-order loop of `Prepare` is related to the recursive
reference `prepR` through an exact *segment* decomposition: entering the
loop at the node of path `p` processes the node's whole binary subtree
(the node, its descendants, and its later siblings), finalising each node
exactly once, and consumes an exactly computable amount of fuel. -/

/-- `p` with its last index incremented: the next-sibling slot. -/
def bumpLast (p : Path) : Path :=
  match p.getLast? with
  | none => []
  | some i => p.dropLast ++ [i + 1]

/-- The subtrees from the node at `p` through its later siblings (the
binary subtree the loop processes from `p`). -/
def tailTrees (t : XTree) (p : Path) : List XTree :=
  match p.getLast? with
  | none => [t]
  | some i => (t.at p.dropLast).children.drop i

/-- Exact number of loop iterations a segment consumes. -/
def segCost : List XTree → Nat
  | [] => 0
  | .node _ cs :: rest => (if rest = [] then 2 else 3) + segCost cs + segCost rest

/-- The field writes of one segment, in the loop's order: the head's
children first, then the later siblings' subtrees, then the head itself
(whose hash reads the store as of its own finalisation). -/
def segFs (digest : List Nat → List Nat) (t : XTree) :
    Path → List XTree → FieldStore → FieldStore
  | _, [], fs => fs
  | p, .node _ cs :: rest, fs =>
    let fs1 := segFs digest t (p ++ [0]) cs fs
    let fs2 := segFs digest t (bumpLast p) rest fs1
    fsSet fs2 p (sigAt t p, hashAt digest t fs2 p)

/-- The paths a segment finalises. -/
def segPaths : Path → List XTree → List Path
  | _, [] => []
  | p, .node _ cs :: rest =>
    segPaths (p ++ [0]) cs ++ segPaths (bumpLast p) rest ++ [p]

/-- Strict lexicographic order on paths (a proper prefix is smaller). -/
def pathLtB : Path → Path → Bool
  | [], [] => false
  | [], _ :: _ => true
  | _ :: _, [] => false
  | a :: as, b :: bs => decide (a < b) || (a == b && pathLtB as bs)

theorem XTree.sz_pos : ∀ st : XTree, 0 < st.sz
  | .node _ cs => by simp only [XTree.sz]; omega

theorem segCost_le : ∀ ts : List XTree, segCost ts ≤ 3 * XTree.szL ts
  | [] => by simp [segCost, XTree.szL]
  | .node d cs :: rest => by
    have h1 := segCost_le cs
    have h2 := segCost_le rest
    simp only [segCost, XTree.szL, XTree.sz]
    split <;> omega

theorem segCost_ge : ∀ (st : XTree) (rest : List XTree), 2 ≤ segCost (st :: rest)
  | .node _ cs, rest => by
    simp only [segCost]
    split <;> omega

theorem at_of_sub {t : XTree} {p : Path} {st : XTree} (h : t.sub p = some st) :
    t.at p = st := by
  simp [XTree.at, h]

theorem pathLtB_irrefl : ∀ p : Path, pathLtB p p = false
  | [] => rfl
  | a :: as => by simp [pathLtB, pathLtB_irrefl as]

theorem pathLtB_trans : ∀ a b c : Path,
    pathLtB a b = true → pathLtB b c = true → pathLtB a c = true
  | [], [], _, h1, _ => by simp [pathLtB] at h1
  | [], _ :: _, [], _, h2 => by simp [pathLtB] at h2
  | [], _ :: _, _ :: _, _, _ => rfl
  | _ :: _, [], _, h1, _ => by simp [pathLtB] at h1
  | _ :: _, _ :: _, [], _, h2 => by simp [pathLtB] at h2
  | a :: as, b :: bs, c :: cs, h1, h2 => by
    simp only [pathLtB, Bool.or_eq_true, Bool.and_eq_true, decide_eq_true_eq,
      beq_iff_eq] at h1 h2 ⊢
    rcases h1 with h1 | ⟨rfl, h1⟩
    · rcases h2 with h2 | ⟨rfl, h2⟩
      · exact Or.inl (Nat.lt_trans h1 h2)
      · exact Or.inl h1
    · rcases h2 with h2 | ⟨rfl, h2⟩
      · exact Or.inl h2
      · exact Or.inr ⟨rfl, pathLtB_trans as bs cs h1 h2⟩

theorem pathLtB_ne {a b : Path} (h : pathLtB a b = true) : a ≠ b := by
  intro hab
  subst hab
  rw [pathLtB_irrefl] at h
  exact Bool.false_ne_true h

/-- Every path below-or-at the slot `x ++ [i]` is smaller than the sibling
slot `x ++ [i+1]`. -/
theorem pathLtB_snoc_bump : ∀ (x : Path) (i : Nat) (s : Path),
    pathLtB (x ++ i :: s) (x ++ [i + 1]) = true
  | [], i, s => by simp [pathLtB, Nat.lt_succ_self]
  | c :: x, i, s => by simp [pathLtB, pathLtB_snoc_bump x i s]

theorem sub_child {t : XTree} {p : Path} {d : NodeData} {cs : List XTree}
    (h : t.sub p = some (.node d cs)) {i : Nat} {ci : XTree}
    (hci : cs[i]? = some ci) : t.sub (p ++ [i]) = some ci := by
  rw [sub_append p [i] t, h]
  show (XTree.node d cs).sub [i] = some ci
  simp [XTree.sub, hci]

theorem sub_parent_of_snoc {t : XTree} {x : Path} {i : Nat} {st : XTree}
    (h : t.sub (x ++ [i]) = some st) :
    ∃ px : XTree, t.sub x = some px ∧ px.children[i]? = some st := by
  rw [sub_append x [i] t] at h
  cases hx : t.sub x with
  | none => rw [hx] at h; simp at h
  | some px =>
    rw [hx] at h
    refine ⟨px, rfl, ?_⟩
    cases px with
    | node d cs =>
      have h' : (XTree.node d cs).sub [i] = some st := h
      simp only [XTree.sub] at h'
      cases hci : cs[i]? with
      | none =>
        rw [hci] at h'
        have hx' : (none : Option XTree) = some st := h'
        simp at hx'
      | some c =>
        rw [hci] at h'
        have hc : some c = some st := h'
        rw [Option.some.inj hc] at hci
        exact hci

theorem childCount_eq {t : XTree} {p : Path} {st : XTree}
    (h : t.sub p = some st) : t.childCount p = st.children.length := by
  simp [XTree.childCount, at_of_sub h]

theorem firstChildPath_eq {t : XTree} {p : Path} {d : NodeData} {cs : List XTree}
    (h : t.sub p = some (.node d cs)) :
    firstChildPath t p = if cs = [] then none else some (p ++ [0]) := by
  have hc : t.childCount p = cs.length := by
    rw [childCount_eq h]
    rfl
  unfold firstChildPath
  rw [hc]
  cases cs <;> simp

theorem firstChildPath_none {t : XTree} {p : Path} {d : NodeData}
    (h : t.sub p = some (.node d [])) : firstChildPath t p = none := by
  rw [firstChildPath_eq h]
  rfl

theorem firstChildPath_some {t : XTree} {p : Path} {d : NodeData} {c0 : XTree}
    {cs' : List XTree} (h : t.sub p = some (.node d (c0 :: cs'))) :
    firstChildPath t p = some (p ++ [0]) := by
  rw [firstChildPath_eq h]
  rfl

theorem path_snoc_of_getLast {p : Path} {i : Nat} (hg : p.getLast? = some i) :
    p.dropLast ++ [i] = p := by
  have hne : p ≠ [] := by
    intro h
    subst h
    simp at hg
  have hx := List.dropLast_append_getLast hne
  have hi : p.getLast hne = i := by
    have := List.getLast?_eq_getLast p hne
    rw [this] at hg
    exact Option.some.inj hg
  rw [hi] at hx
  exact hx

theorem nsp_none {t : XTree} {p : Path} {st : XTree} {rest : List XTree}
    (htail : tailTrees t p = st :: rest) (hrest : rest = []) :
    nextSiblingPath t p = none := by
  subst hrest
  unfold nextSiblingPath
  cases hg : p.getLast? with
  | none => rfl
  | some i =>
    unfold tailTrees at htail
    rw [hg] at htail
    dsimp only at htail ⊢
    have hlen := congrArg List.length htail
    rw [List.length_drop] at hlen
    simp only [List.length_cons, List.length_nil] at hlen
    have hlt : i < (t.at p.dropLast).children.length := by
      by_contra hle
      rw [List.drop_eq_nil_of_le (by omega)] at htail
      exact absurd htail (by simp)
    have hcc : t.childCount p.dropLast = (t.at p.dropLast).children.length := rfl
    rw [hcc, if_neg (by omega)]

theorem nsp_some {t : XTree} {p : Path} {st : XTree} {rest : List XTree}
    (htail : tailTrees t p = st :: rest) (hrest : rest ≠ []) :
    nextSiblingPath t p = some (bumpLast p) := by
  unfold nextSiblingPath bumpLast
  cases hg : p.getLast? with
  | none =>
    unfold tailTrees at htail
    rw [hg] at htail
    dsimp only at htail
    have := congrArg List.length htail
    simp at this
    exact absurd this hrest
  | some i =>
    unfold tailTrees at htail
    rw [hg] at htail
    dsimp only at htail ⊢
    have hlen := congrArg List.length htail
    rw [List.length_drop] at hlen
    simp only [List.length_cons] at hlen
    have hlt : i < (t.at p.dropLast).children.length := by
      by_contra hle
      rw [List.drop_eq_nil_of_le (by omega)] at htail
      exact absurd htail (by simp)
    have hr : 0 < rest.length := List.length_pos.mpr hrest
    have hcc : t.childCount p.dropLast = (t.at p.dropLast).children.length := rfl
    rw [hcc, if_pos (by omega)]

theorem tail_child {t : XTree} {p : Path} {d : NodeData} {c0 : XTree}
    {cs' : List XTree} (hsub : t.sub p = some (.node d (c0 :: cs'))) :
    t.sub (p ++ [0]) = some c0 ∧ tailTrees t (p ++ [0]) = c0 :: cs' := by
  constructor
  · exact sub_child hsub (by simp)
  · unfold tailTrees
    rw [List.getLast?_concat, List.dropLast_concat, at_of_sub hsub]
    rfl

theorem tail_bump {t : XTree} {p : Path} {st r0 : XTree} {rest' : List XTree}
    (hsub : t.sub p = some st)
    (htail : tailTrees t p = st :: r0 :: rest') :
    t.sub (bumpLast p) = some r0 ∧ tailTrees t (bumpLast p) = r0 :: rest' := by
  cases hg : p.getLast? with
  | none =>
    unfold tailTrees at htail
    rw [hg] at htail
    simp at htail
  | some i =>
    have hx := path_snoc_of_getLast hg
    unfold tailTrees at htail
    rw [hg] at htail
    dsimp only at htail
    obtain ⟨px, hpx, hchild⟩ := sub_parent_of_snoc (x := p.dropLast) (i := i)
      (by rw [hx]; exact hsub)
    have hat : t.at p.dropLast = px := at_of_sub hpx
    rw [hat] at htail
    have hdrop1 : px.children.drop (i + 1) = r0 :: rest' := by
      have h1 := List.drop_drop 1 i px.children
      rw [htail] at h1
      simpa using h1.symm
    have hbump : bumpLast p = p.dropLast ++ [i + 1] := by
      unfold bumpLast
      rw [hg]
    constructor
    · rw [hbump, sub_append, hpx]
      have hget : px.children[i + 1]? = some r0 := by
        have := List.getElem?_drop px.children i 1
        rw [htail] at this
        simpa using this.symm
      cases px with
      | node dp csp =>
        show (XTree.node dp csp).sub [i + 1] = some r0
        simp only [XTree.sub]
        rw [show csp[i+1]? = some r0 from hget]
    · rw [hbump]
      unfold tailTrees
      rw [List.getLast?_concat, List.dropLast_concat, hat]
      exact hdrop1

/-! Single-iteration unfoldings of the `Prepare` loop. -/

theorem prepLoop_push (digest : List Nat → List Nat) (t : XTree) (fuel : Nat)
    (s : List Path) (p : Path) (lv : Option Path) (fs : FieldStore)
    (h : s.length ≠ maxStackSize) :
    prepLoop digest t (fuel + 1) s (some p) lv fs
      = prepLoop digest t fuel (p :: s) (firstChildPath t p) lv fs := by
  simp [prepLoop, h]

theorem prepLoop_fin (digest : List Nat → List Nat) (t : XTree) (fuel : Nat)
    (s : List Path) (q : Path) (lv : Option Path) (fs : FieldStore)
    (hns : nextSiblingPath t q = none) :
    prepLoop digest t (fuel + 1) (q :: s) none lv fs
      = prepLoop digest t fuel s none (some q)
          (fsSet fs q (sigAt t q, hashAt digest t fs q)) := by
  simp [prepLoop, hns]

theorem prepLoop_fin2 (digest : List Nat → List Nat) (t : XTree) (fuel : Nat)
    (s : List Path) (q sib : Path) (fs : FieldStore)
    (hns : nextSiblingPath t q = some sib) :
    prepLoop digest t (fuel + 1) (q :: s) none (some sib) fs
      = prepLoop digest t fuel s none (some q)
          (fsSet fs q (sigAt t q, hashAt digest t fs q)) := by
  simp [prepLoop, hns]

theorem prepLoop_switch (digest : List Nat → List Nat) (t : XTree) (fuel : Nat)
    (s : List Path) (q sib : Path) (lv : Option Path) (fs : FieldStore)
    (hns : nextSiblingPath t q = some sib) (hlv : lv ≠ some sib) :
    prepLoop digest t (fuel + 1) (q :: s) none lv fs
      = prepLoop digest t fuel (q :: s) (some sib) lv fs := by
  simp [prepLoop, hns, hlv]

theorem pathLtB_append_right : ∀ (q p r : Path),
    pathLtB q p = true → pathLtB q (p ++ r) = true
  | [], [], _, h => by simp [pathLtB] at h
  | [], _ :: _, _, _ => rfl
  | _ :: _, [], _, h => by simp [pathLtB] at h
  | a :: as, b :: bs, r, h => by
    simp only [pathLtB, Bool.or_eq_true, Bool.and_eq_true, decide_eq_true_eq,
      beq_iff_eq] at h ⊢
    rcases h with h | ⟨rfl, h⟩
    · exact Or.inl h
    · exact Or.inr ⟨rfl, pathLtB_append_right as bs r h⟩

theorem bumpLast_snoc (x : Path) (i : Nat) : bumpLast (x ++ [i]) = x ++ [i + 1] := by
  unfold bumpLast
  rw [List.getLast?_concat]
  dsimp only
  rw [List.dropLast_concat]

/-- The segment decomposition of the `Prepare` loop: entering at a valid
path with enough stack room processes the whole binary subtree, writing
exactly the `segFs` fields and consuming exactly `segCost` fuel. -/
theorem prepSeg (digest : List Nat → List Nat) (t : XTree) :
    ∀ (n : Nat) (d : NodeData) (cs rest : List XTree) (p : Path),
      XTree.szL (XTree.node d cs :: rest) ≤ n →
      t.sub p = some (.node d cs) →
      tailTrees t p = XTree.node d cs :: rest →
      ∀ (s : List Path) (lv : Option Path) (fs : FieldStore) (k : Nat),
        s.length + XTree.bdL (XTree.node d cs :: rest) ≤ maxStackSize →
        (∀ q, lv = some q → pathLtB q p = true) →
        prepLoop digest t (segCost (XTree.node d cs :: rest) + k) s (some p) lv fs
          = prepLoop digest t k s none (some p)
              (segFs digest t p (XTree.node d cs :: rest) fs) := by
  intro n
  induction n with
  | zero =>
    intro d cs rest p hsz hsub htail s lv fs k hstack hlv
    exact absurd hsz (by
      simp only [XTree.szL, Nat.not_le]
      have := XTree.sz_pos (.node d cs)
      omega)
  | succ n ih =>
    intro d cs rest p hsz hsub htail s lv fs k hstack hlv
    have hszcs : 1 + XTree.szL cs + XTree.szL rest ≤ n + 1 := by
      simpa [XTree.szL, XTree.sz] using hsz
    have hbd : s.length + (1 + max (XTree.bdL cs) (XTree.bdL rest)) ≤ maxStackSize := by
      simpa [XTree.bdL] using hstack
    have hslen : s.length ≠ maxStackSize := by omega
    have hmaxl := Nat.le_max_left (XTree.bdL cs) (XTree.bdL rest)
    have hmaxr := Nat.le_max_right (XTree.bdL cs) (XTree.bdL rest)
    cases cs with
    | nil =>
      cases rest with
      | nil =>
        -- leaf, no siblings: push then finalise
        have e1 : segCost (XTree.node d [] :: []) + k = (k + 1) + 1 := by
          simp [segCost]
          omega
        rw [e1, prepLoop_push digest t _ s p lv fs hslen,
          firstChildPath_none hsub]
        rw [prepLoop_fin digest t k s p lv fs (nsp_none htail rfl)]
        simp only [segFs]
      | cons r0 rest' =>
        -- leaf with later siblings: push, switch, sibling segment, finalise
        have hpne : p ≠ [] := by
          intro h
          subst h
          unfold tailTrees at htail
          simp at htail
        have hxp : p.dropLast ++ [p.getLast hpne] = p :=
          List.dropLast_append_getLast hpne
        have hb : bumpLast p = p.dropLast ++ [p.getLast hpne + 1] := by
          conv_lhs => rw [← hxp]
          rw [bumpLast_snoc]
        have hpbump : pathLtB p (bumpLast p) = true := by
          have h1 := pathLtB_snoc_bump p.dropLast (p.getLast hpne) []
          rw [hxp] at h1
          rw [hb]
          exact h1
        have hlvbump : lv ≠ some (bumpLast p) := by
          intro he
          exact pathLtB_ne (pathLtB_trans _ _ _ (hlv _ he) hpbump) rfl
        obtain ⟨hsubr, htailr⟩ := tail_bump hsub htail
        have e1 : segCost (XTree.node d [] :: r0 :: rest') + k
            = ((segCost (r0 :: rest') + (k + 1)) + 1) + 1 := by
          simp [segCost]
          omega
        rw [e1, prepLoop_push digest t _ s p lv fs hslen, firstChildPath_none hsub]
        rw [prepLoop_switch digest t _ s p (bumpLast p) lv fs
          (nsp_some htail (by simp)) hlvbump]
        cases r0 with
        | node d0 cs0 =>
          rw [ih d0 cs0 rest' (bumpLast p)
            (by
              have := XTree.sz_pos (.node d0 cs0)
              simp only [XTree.szL] at hszcs ⊢
              omega)
            hsubr htailr (p :: s) lv fs (k + 1)
            (by
              simp only [List.length_cons]
              have hb : XTree.bdL (XTree.node d0 cs0 :: rest')
                  ≤ XTree.bdL ((XTree.node d [] : XTree) :: XTree.node d0 cs0 :: rest') := by
                simp only [XTree.bdL]
                omega
              simp only [XTree.bdL] at hbd ⊢
              omega)
            (fun q hq => pathLtB_trans _ _ _ (hlv q hq) hpbump)]
          rw [prepLoop_fin2 digest t k s p (bumpLast p) _
            (nsp_some htail (by simp))]
          simp only [segFs]
    | cons c0 cs' =>
      have hfc : firstChildPath t p = some (p ++ [0]) := firstChildPath_some hsub
      obtain ⟨hsubc, htailc⟩ := tail_child hsub
      have hlvchild : ∀ q, lv = some q → pathLtB q (p ++ [0]) = true :=
        fun q hq => pathLtB_append_right _ _ _ (hlv q hq)
      cases rest with
      | nil =>
        have e1 : segCost (XTree.node d (c0 :: cs') :: []) + k
            = (segCost (c0 :: cs') + (k + 1)) + 1 := by
          simp [segCost]
          omega
        rw [e1, prepLoop_push digest t _ s p lv fs hslen, hfc]
        cases c0 with
        | node d0 cs0 =>
          rw [ih d0 cs0 cs' (p ++ [0])
            (by simp only [XTree.szL] at hszcs ⊢; omega)
            hsubc htailc (p :: s) lv fs (k + 1)
            (by
              simp only [List.length_cons]
              simp only [XTree.bdL] at hbd ⊢
              omega)
            hlvchild]
          rw [prepLoop_fin digest t k s p _ _ (nsp_none htail rfl)]
          simp only [segFs]
      | cons r0 rest' =>
        have hpne : p ≠ [] := by
          intro h
          subst h
          unfold tailTrees at htail
          simp at htail
        have hxp : p.dropLast ++ [p.getLast hpne] = p :=
          List.dropLast_append_getLast hpne
        have hb : bumpLast p = p.dropLast ++ [p.getLast hpne + 1] := by
          conv_lhs => rw [← hxp]
          rw [bumpLast_snoc]
        have hpbump : pathLtB (p ++ [0]) (bumpLast p) = true := by
          have h1 := pathLtB_snoc_bump p.dropLast (p.getLast hpne) [0]
          have h2 : p.dropLast ++ p.getLast hpne :: [0] = p ++ [0] := by
            conv_rhs => rw [← hxp]
            simp
          rw [h2] at h1
          rw [hb]
          exact h1
        obtain ⟨hsubr, htailr⟩ := tail_bump hsub htail
        have e1 : segCost (XTree.node d (c0 :: cs') :: r0 :: rest') + k
            = (segCost (c0 :: cs') + (((segCost (r0 :: rest') + (k + 1)) + 1))) + 1 := by
          simp [segCost]
          omega
        rw [e1, prepLoop_push digest t _ s p lv fs hslen, hfc]
        cases c0 with
        | node d0 cs0 =>
          rw [ih d0 cs0 cs' (p ++ [0])
            (by simp only [XTree.szL] at hszcs ⊢; omega)
            hsubc htailc (p :: s) lv fs _
            (by
              simp only [List.length_cons]
              simp only [XTree.bdL] at hbd ⊢
              omega)
            hlvchild]
          rw [prepLoop_switch digest t _ s p (bumpLast p) _ _
            (nsp_some htail (by simp))
            (by
              intro he
              exact pathLtB_ne hpbump (Option.some.inj he))]
          cases r0 with
          | node d1 cs1 =>
            rw [ih d1 cs1 rest' (bumpLast p)
              (by
                have := XTree.sz_pos (.node d0 cs0)
                simp only [XTree.szL] at hszcs ⊢
                omega)
              hsubr htailr (p :: s) (some (p ++ [0])) _ (k + 1)
              (by
                simp only [List.length_cons]
                simp only [XTree.bdL] at hbd ⊢
                omega)
              (fun q hq => by
                rw [← Option.some.inj hq]
                exact hpbump)]
            rw [prepLoop_fin2 digest t k s p (bumpLast p) _
              (nsp_some htail (by simp))]
            simp only [segFs]

theorem prepLoop_done (digest : List Nat → List Nat) (t : XTree) (fuel : Nat)
    (lv : Option Path) (fs : FieldStore) :
    prepLoop digest t (fuel + 1) [] none lv fs = some (.ok fs) := by
  simp [prepLoop]

/-- Every path a segment finalises extends the segment's base slot, with an
index at least the base's. -/
theorem segPaths_shape : ∀ (ts : List XTree) (x : Path) (j : Nat) (q : Path),
    q ∈ segPaths (x ++ [j]) ts → ∃ j' s', j ≤ j' ∧ q = x ++ j' :: s'
  | [], x, j, q => by simp [segPaths]
  | .node d cs :: rest, x, j, q => by
    intro hq
    simp only [segPaths, List.mem_append, List.mem_singleton] at hq
    rcases hq with (hq | hq) | hq
    · obtain ⟨j'', s'', _, he⟩ := segPaths_shape cs (x ++ [j]) 0 q hq
      exact ⟨j, j'' :: s'', le_refl j, by simpa using he⟩
    · rw [bumpLast_snoc] at hq
      obtain ⟨j', s', hj, he⟩ := segPaths_shape rest x (j + 1) q hq
      exact ⟨j', s', by omega, he⟩
    · exact ⟨j, [], le_refl j, by simpa using hq⟩

mutual
/-- Every valid path inside the head subtree is finalised by the
segment. -/
theorem mem_seg_head : ∀ (st : XTree) (rest : List XTree) (p q : Path),
    (st.sub q).isSome → p ++ q ∈ segPaths p (st :: rest)
  | .node d cs, rest, p, [], _ => by
    simp [segPaths]
  | .node d cs, rest, p, i :: q', hsome => by
    simp only [XTree.sub] at hsome
    cases hci : cs[i]? with
    | none =>
      rw [hci] at hsome
      simp at hsome
    | some ci =>
      rw [hci] at hsome
      have hmem := mem_seg_idx cs i ci p 0 q' hci hsome
      simp only [segPaths, List.mem_append]
      left
      left
      simpa using hmem
theorem mem_seg_idx : ∀ (cs : List XTree) (i : Nat) (ci : XTree) (x : Path)
    (j : Nat) (q' : Path), cs[i]? = some ci → (ci.sub q').isSome →
    (x ++ [j + i]) ++ q' ∈ segPaths (x ++ [j]) cs
  | [], i, ci, x, j, q', hci, _ => by simp at hci
  | c0 :: cs', 0, ci, x, j, q', hci, hs => by
    have hc : c0 = ci := by simpa using hci
    subst hc
    have := mem_seg_head c0 cs' (x ++ [j]) q' hs
    simpa using this
  | c0 :: cs', i' + 1, ci, x, j, q', hci, hs => by
    have hci' : cs'[i']? = some ci := by simpa using hci
    have hmem := mem_seg_idx cs' i' ci x (j + 1) q' hci' hs
    cases c0 with
    | node d0 cs0 =>
      simp only [segPaths, List.mem_append, bumpLast_snoc]
      left
      right
      rw [show j + (i' + 1) = (j + 1) + i' by omega]
      exact hmem
end

theorem mem_seg_root (t : XTree) (q : Path) (h : (t.sub q).isSome) :
    q ∈ segPaths [] [t] := by
  have := mem_seg_head t [] [] q h
  simpa using this

theorem hashRL_map (digest : List Nat → List Nat) :
    ∀ cs : List XTree, hashRL digest cs = cs.map (hashR digest)
  | [] => rfl
  | c :: cs => by simp [hashRL, hashRL_map digest cs]

theorem chGo_vals (digest : List Nat → List Nat) (t : XTree) (fs : FieldStore)
    (q : Path) : ∀ (cs : List XTree) (i : Nat),
    (∀ k ck, cs[k]? = some ck →
      fs (q ++ [i + k]) = some (sigAt t (q ++ [i + k]), hashR digest ck)) →
    chGo fs q i cs = cs.map (hashR digest)
  | [], _, _ => rfl
  | c :: cs', i, h => by
    have h0 := h 0 c (by simp)
    simp only [chGo, List.map_cons]
    rw [show i + 0 = i from rfl] at h0
    rw [h0]
    refine congrArg₂ List.cons rfl ?_
    exact chGo_vals digest t fs q cs' (i + 1) (fun k ck hk => by
      have := h (k + 1) ck (by simpa using hk)
      rwa [show i + (k + 1) = (i + 1) + k by omega] at this)

theorem hashAt_eq (digest : List Nat → List Nat) (t : XTree) (fs : FieldStore)
    {q : Path} {d : NodeData} {cs : List XTree}
    (hsub : t.sub q = some (.node d cs))
    (hch : ∀ k ck, cs[k]? = some ck →
      fs (q ++ [k]) = some (sigAt t (q ++ [k]), hashR digest ck)) :
    hashAt digest t fs q = hashR digest (.node d cs) := by
  unfold hashAt childHashes
  rw [at_of_sub hsub]
  show digest ([d.type.byteVal] ++ d.name ++ d.value ++ (chGo fs q 0 cs).flatten) = _
  rw [chGo_vals digest t fs q cs 0 (fun k ck hk => by simpa using hch k ck hk)]
  show _ = digest ([d.type.byteVal] ++ d.name ++ d.value ++ (hashRL digest cs).flatten)
  rw [hashRL_map]

theorem segFs_nil (digest : List Nat → List Nat) (t : XTree) (x : Path)
    (fs : FieldStore) : segFs digest t x [] fs = fs := by
  simp [segFs]

theorem seg_disjoint_low {x0 : Path} {i0 j : Nat} {s : Path} (ts : List XTree)
    (hj : i0 < j) : x0 ++ i0 :: s ∉ segPaths (x0 ++ [j]) ts := by
  intro hmem
  obtain ⟨j', s', hj', he⟩ := segPaths_shape ts x0 j _ hmem
  have hc : i0 :: s = j' :: s' := List.append_cancel_left he
  have : i0 = j' := (List.cons.injEq _ _ _ _ ▸ hc).1
  omega

theorem base_not_in_child_seg (cs : List XTree) (p : Path) :
    p ∉ segPaths (p ++ [0]) cs := by
  intro h
  obtain ⟨j', s', _, he⟩ := segPaths_shape cs p 0 p h
  have := congrArg List.length he
  simp at this

/-- The values a segment's store holds: every path the segment finalises
maps to its signature and its recursive hash; every other path is
untouched. -/
theorem segFs_val (digest : List Nat → List Nat) (t : XTree) :
    ∀ (n : Nat) (d : NodeData) (cs rest : List XTree) (p : Path),
      XTree.szL (XTree.node d cs :: rest) ≤ n →
      t.sub p = some (.node d cs) →
      tailTrees t p = XTree.node d cs :: rest →
      ∀ (fs : FieldStore) (q : Path),
        (q ∈ segPaths p (XTree.node d cs :: rest) →
          ∃ stq, t.sub q = some stq ∧
            segFs digest t p (XTree.node d cs :: rest) fs q
              = some (sigAt t q, hashR digest stq)) ∧
        (q ∉ segPaths p (XTree.node d cs :: rest) →
          segFs digest t p (XTree.node d cs :: rest) fs q = fs q) := by
  intro n
  induction n with
  | zero =>
    intro d cs rest p hsz
    exact absurd hsz (by
      simp only [XTree.szL, Nat.not_le]
      have := XTree.sz_pos (.node d cs)
      omega)
  | succ n ih =>
    intro d cs rest p hsz hsub htail fs q
    have hszcs : 1 + XTree.szL cs + XTree.szL rest ≤ n + 1 := by
      simpa [XTree.szL, XTree.sz] using hsz
    have hunf : segFs digest t p (XTree.node d cs :: rest) fs
        = fsSet
            (segFs digest t (bumpLast p) rest (segFs digest t (p ++ [0]) cs fs))
            p
            (sigAt t p,
              hashAt digest t
                (segFs digest t (bumpLast p) rest (segFs digest t (p ++ [0]) cs fs)) p) := by
      simp only [segFs]
    have Hfs1 : ∀ q',
        (q' ∈ segPaths (p ++ [0]) cs →
          ∃ stq, t.sub q' = some stq ∧
            segFs digest t (p ++ [0]) cs fs q' = some (sigAt t q', hashR digest stq)) ∧
        (q' ∉ segPaths (p ++ [0]) cs →
          segFs digest t (p ++ [0]) cs fs q' = fs q') := by
      cases cs with
      | nil =>
        intro q'
        constructor
        · intro h
          simp [segPaths] at h
        · intro _
          rw [segFs_nil]
      | cons c0 cs' =>
        cases c0 with
        | node d0 cs0 =>
          obtain ⟨hsubc, htailc⟩ := tail_child hsub
          exact fun q' => ih d0 cs0 cs' (p ++ [0])
            (by simp only [XTree.szL] at hszcs ⊢; omega) hsubc htailc fs q'
    have Hfs2 : ∀ q',
        (q' ∈ segPaths (bumpLast p) rest →
          ∃ stq, t.sub q' = some stq ∧
            segFs digest t (bumpLast p) rest (segFs digest t (p ++ [0]) cs fs) q'
              = some (sigAt t q', hashR digest stq)) ∧
        (q' ∉ segPaths (bumpLast p) rest →
          segFs digest t (bumpLast p) rest (segFs digest t (p ++ [0]) cs fs) q'
            = segFs digest t (p ++ [0]) cs fs q') := by
      cases rest with
      | nil =>
        intro q'
        constructor
        · intro h
          simp [segPaths] at h
        · intro _
          rw [segFs_nil]
      | cons r0 rest' =>
        cases r0 with
        | node d1 cs1 =>
          obtain ⟨hsubr, htailr⟩ := tail_bump hsub htail
          exact fun q' => ih d1 cs1 rest' (bumpLast p)
            (by
              have := XTree.sz_pos (.node d cs)
              simp only [XTree.szL] at hszcs ⊢
              omega)
            hsubr htailr (segFs digest t (p ++ [0]) cs fs) q'
    have Hdisj : ∀ q', q' ∈ segPaths (p ++ [0]) cs →
        q' ∉ segPaths (bumpLast p) rest := by
      cases rest with
      | nil =>
        intro q' _ hq'
        simp [segPaths] at hq'
      | cons r0 rest' =>
        have hpne : p ≠ [] := by
          intro h
          subst h
          unfold tailTrees at htail
          simp at htail
        have hxp : p.dropLast ++ [p.getLast hpne] = p :=
          List.dropLast_append_getLast hpne
        have hb : bumpLast p = p.dropLast ++ [p.getLast hpne + 1] := by
          conv_lhs => rw [← hxp]
          rw [bumpLast_snoc]
        intro q' hqc hqr
        obtain ⟨j', s', _, he⟩ := segPaths_shape cs p 0 q' hqc
        have he2 : q' = p.dropLast ++ p.getLast hpne :: (j' :: s') := by
          rw [he]
          conv_lhs => rw [← hxp]
          simp
        rw [hb, he2] at hqr
        exact seg_disjoint_low (r0 :: rest') (by omega) hqr
    have HdisjP2 : p ∉ segPaths (bumpLast p) rest := by
      cases rest with
      | nil =>
        intro hq'
        simp [segPaths] at hq'
      | cons r0 rest' =>
        have hpne : p ≠ [] := by
          intro h
          subst h
          unfold tailTrees at htail
          simp at htail
        have hxp : p.dropLast ++ [p.getLast hpne] = p :=
          List.dropLast_append_getLast hpne
        have hb : bumpLast p = p.dropLast ++ [p.getLast hpne + 1] := by
          conv_lhs => rw [← hxp]
          rw [bumpLast_snoc]
        intro hqr
        have hx : p.dropLast ++ p.getLast hpne :: ([] : Path) = p := by
          simpa using hxp
        exact seg_disjoint_low (r0 :: rest') (Nat.lt_succ_self _)
          (by rw [hx, ← hb]; exact hqr)
    -- the hash written at `p` combines the children's recursive hashes
    have hhash : hashAt digest t
        (segFs digest t (bumpLast p) rest (segFs digest t (p ++ [0]) cs fs)) p
        = hashR digest (.node d cs) := by
      apply hashAt_eq digest t _ hsub
      intro k ck hck
      have hkmem : p ++ [k] ∈ segPaths (p ++ [0]) cs := by
        have := mem_seg_idx cs k ck p 0 [] hck (by simp [XTree.sub])
        simpa using this
      obtain ⟨stq, hstq, hval⟩ := (Hfs1 (p ++ [k])).1 hkmem
      have hsubck : t.sub (p ++ [k]) = some ck := sub_child hsub hck
      rw [hsubck] at hstq
      cases Option.some.inj hstq
      rw [(Hfs2 (p ++ [k])).2 (Hdisj _ hkmem), hval]
    constructor
    · intro hq
      simp only [segPaths, List.mem_append, List.mem_singleton] at hq
      rcases hq with (hqc | hqr) | rfl
      · have hqp : q ≠ p := by
          intro h
          subst h
          exact base_not_in_child_seg cs _ hqc
        obtain ⟨stq, hstq, hval⟩ := (Hfs1 q).1 hqc
        refine ⟨stq, hstq, ?_⟩
        rw [hunf]
        unfold fsSet
        rw [if_neg hqp, (Hfs2 q).2 (Hdisj _ hqc), hval]
      · have hqp : q ≠ p := by
          intro h
          subst h
          exact HdisjP2 hqr
        obtain ⟨stq, hstq, hval⟩ := (Hfs2 q).1 hqr
        refine ⟨stq, hstq, ?_⟩
        rw [hunf]
        unfold fsSet
        rw [if_neg hqp, hval]
      · refine ⟨.node d cs, hsub, ?_⟩
        rw [hunf]
        unfold fsSet
        rw [if_pos rfl, hhash]
    · intro hq
      simp only [segPaths, List.mem_append, List.mem_singleton] at hq
      push_neg at hq
      obtain ⟨⟨hqc, hqr⟩, hqp⟩ := hq
      rw [hunf]
      unfold fsSet
      rw [if_neg hqp, (Hfs2 q).2 hqr, (Hfs1 q).2 hqc]

mutual
/-- Applying a store that holds the signature and the recursive hash at
every valid path turns the input tree into the recursive reference
preparation. -/
theorem applyFs_eq (digest : List Nat → List Nat) (t : XTree) (fs : FieldStore)
    (hfs : ∀ q stq, t.sub q = some stq → fs q = some (sigAt t q, hashR digest stq)) :
    ∀ (st : XTree) (p : Path), t.sub p = some st →
      applyFs fs p st = prepR digest (ancNames t p) st
  | .node d cs, p, hsub => by
    have hfsp := hfs p (.node d cs) hsub
    have hch : applyFsL fs p 0 cs = prepRL digest (ancNames t p ++ [d.name]) cs :=
      applyFsL_eq digest t fs hfs cs p 0 (ancNames t p ++ [d.name]) (fun k ck hk => by
        refine ⟨by simpa using sub_child hsub hk, ?_⟩
        rw [show (0 : Nat) + k = k from by omega,
          ancNames_append p [k] t (.node d cs) hsub]
        have : ancNames (XTree.node d cs) [k] = [d.name] := by
          simp [ancNames, hk]
        rw [this])
    show XTree.node
        (match fs p with
         | some v => { d with sig := v.1, hash := v.2 }
         | none => d) (applyFsL fs p 0 cs) = _
    have hs : sigAt t p = sigOf (ancNames t p) d.type d.name := by
      unfold sigAt
      rw [at_of_sub hsub]
      rfl
    have hh : hashR digest (.node d cs)
        = digest (hashInput d (prepRL digest (ancNames t p ++ [d.name]) cs)) := by
      show digest ([d.type.byteVal] ++ d.name ++ d.value ++ (hashRL digest cs).flatten) = _
      unfold hashInput
      rw [prepRL_hashF]
    rw [hfsp, hch]
    dsimp only
    rw [hs, hh]
    rfl
theorem applyFsL_eq (digest : List Nat → List Nat) (t : XTree) (fs : FieldStore)
    (hfs : ∀ q stq, t.sub q = some stq → fs q = some (sigAt t q, hashR digest stq)) :
    ∀ (cs : List XTree) (p : Path) (i : Nat) (anc : List (List Nat)),
      (∀ k ck, cs[k]? = some ck → t.sub (p ++ [i + k]) = some ck ∧
        ancNames t (p ++ [i + k]) = anc) →
      applyFsL fs p i cs = prepRL digest anc cs
  | [], _, _, _, _ => rfl
  | c :: cs', p, i, anc, h => by
    obtain ⟨hsubc, hanc⟩ := h 0 c (by simp)
    rw [show i + 0 = i from rfl] at hsubc hanc
    show applyFs fs (p ++ [i]) c :: applyFsL fs p (i + 1) cs'
      = prepR digest anc c :: prepRL digest anc cs'
    rw [applyFs_eq digest t fs hfs c (p ++ [i]) hsubc, hanc,
      applyFsL_eq digest t fs hfs cs' p (i + 1) anc (fun k ck hk => by
        have := h (k + 1) ck (by simpa using hk)
        rwa [show i + (k + 1) = (i + 1) + k by omega] at this)]
end

theorem tail_root (t : XTree) : tailTrees t [] = [t] := by
  unfold tailTrees
  rfl

/-- When the tree fits in the stack, the loop from the root terminates
with the full segment store. -/
theorem prepLoop_top (digest : List Nat → List Nat) (t : XTree)
    (h : XTree.bdL [t] ≤ maxStackSize) :
    prepLoop digest t (prepFuel t) [] (some []) none (fun _ => none)
      = some (.ok (segFs digest t [] [t] (fun _ => none))) := by
  cases t with
  | node d cs =>
    have hc : segCost [XTree.node d cs] ≤ 3 * (XTree.node d cs).sz := by
      have := segCost_le [XTree.node d cs]
      simpa [XTree.szL] using this
    have he : segCost [XTree.node d cs]
        + (prepFuel (XTree.node d cs) - segCost [XTree.node d cs])
        = prepFuel (XTree.node d cs) := by
      unfold prepFuel
      omega
    rw [← he]
    rw [prepSeg digest (XTree.node d cs) (XTree.szL [XTree.node d cs]) d cs [] []
      (le_refl _) rfl (tail_root _) [] none (fun _ => none) _
      (by simpa using h) (fun q hq => by cases hq)]
    have hk : prepFuel (XTree.node d cs) - segCost [XTree.node d cs]
        = (prepFuel (XTree.node d cs) - segCost [XTree.node d cs] - 1) + 1 := by
      unfold prepFuel
      omega
    rw [hk, prepLoop_done]

/-- Every valid path of the store built by the root segment holds the
signature and the recursive hash of its subtree. -/
theorem segFs_root_val (digest : List Nat → List Nat) (t : XTree)
    (q : Path) (stq : XTree) (h : t.sub q = some stq) :
    segFs digest t [] [t] (fun _ => none) q
      = some (sigAt t q, hashR digest stq) := by
  cases t with
  | node d cs =>
    have hmem : q ∈ segPaths [] [XTree.node d cs] :=
      mem_seg_root _ q (by rw [h]; rfl)
    obtain ⟨stq', hstq', hval⟩ :=
      (segFs_val digest (XTree.node d cs) (XTree.szL [XTree.node d cs]) d cs [] []
        (le_refl _) rfl (tail_root _) (fun _ => none) q).1 hmem
    rw [h] at hstq'
    cases Option.some.inj hstq'
    exact hval

/-- `Prepare` on a tree that fits in the stack succeeds and returns
exactly the recursive reference preparation. -/
theorem Prepare_ok (digest : List Nat → List Nat) (t : XTree)
    (h : XTree.bdL [t] ≤ maxStackSize) :
    Prepare digest t = some (.ok (prepR digest [] t)) := by
  unfold Prepare
  rw [prepLoop_top digest t h]
  have := applyFs_eq digest t (segFs digest t [] [t] (fun _ => none))
    (fun q stq hq => segFs_root_val digest t q stq hq) t [] (by cases t; rfl)
  exact congrArg (fun u => some (Except.ok u)) this

theorem pathLtB_append_cons : ∀ (p : Path) (i : Nat) (s : Path),
    pathLtB p (p ++ i :: s) = true
  | [], _, _ => rfl
  | a :: as, i, s => by
    simp [pathLtB, pathLtB_append_cons as i s]

theorem segCost_cons (d : NodeData) (cs rest : List XTree) :
    segCost (XTree.node d cs :: rest)
      = (if rest = [] then 2 else 3) + segCost cs + segCost rest := by
  simp only [segCost]

/-- The error side of the segment decomposition: entering the loop on a
segment whose binary depth overflows the remaining stack room yields the
`depthExceeded` error (given at least the segment's fuel). -/
theorem prepSegErr (digest : List Nat → List Nat) (t : XTree) :
    ∀ (n : Nat) (d : NodeData) (cs rest : List XTree) (p : Path),
      XTree.szL (XTree.node d cs :: rest) ≤ n →
      t.sub p = some (.node d cs) →
      tailTrees t p = XTree.node d cs :: rest →
      ∀ (s : List Path) (lv : Option Path) (fs : FieldStore) (fuel : Nat),
        s.length ≤ maxStackSize →
        maxStackSize < s.length + XTree.bdL (XTree.node d cs :: rest) →
        (∀ q, lv = some q → pathLtB q p = true) →
        segCost (XTree.node d cs :: rest) ≤ fuel →
        prepLoop digest t fuel s (some p) lv fs = some (.error .depthExceeded) := by
  intro n
  induction n with
  | zero =>
    intro d cs rest p hsz
    exact absurd hsz (by
      simp only [XTree.szL, Nat.not_le]
      have := XTree.sz_pos (.node d cs)
      omega)
  | succ n ih =>
    intro d cs rest p hsz hsub htail s lv fs fuel hle hover hlv hfuel
    have hszcs : 1 + XTree.szL cs + XTree.szL rest ≤ n + 1 := by
      simpa [XTree.szL, XTree.sz] using hsz
    have hbd : maxStackSize < s.length + (1 + max (XTree.bdL cs) (XTree.bdL rest)) := by
      simpa [XTree.bdL] using hover
    rw [segCost_cons] at hfuel
    have hfm : (if rest = [] then 2 else 3) ≤ 3 ∧ 2 ≤ (if rest = [] then 2 else 3) := by
      split <;> omega
    cases fuel with
    | zero => omega
    | succ fuel' =>
    by_cases hs : s.length = maxStackSize
    · show prepLoop digest t (fuel' + 1) s (some p) lv fs = _
      simp [prepLoop, hs]
    · have hslt : s.length < maxStackSize := lt_of_le_of_ne hle hs
      rw [prepLoop_push digest t fuel' s p lv fs hs]
      by_cases hcs : maxStackSize < s.length + 1 + XTree.bdL cs
      · -- the children themselves overflow
        cases cs with
        | nil =>
          exact absurd hcs (by simp [XTree.bdL]; omega)
        | cons c0 cs' =>
          cases c0 with
          | node d0 cs0 =>
            obtain ⟨hsubc, htailc⟩ := tail_child hsub
            rw [firstChildPath_some hsub]
            exact ih d0 cs0 cs' (p ++ [0])
              (by simp only [XTree.szL, XTree.sz] at hszcs ⊢; omega)
              hsubc htailc (p :: s) lv fs fuel'
              (by simpa using hslt)
              (by simpa using hcs)
              (fun q hq => pathLtB_append_right q p [0] (hlv q hq))
              (by
                have := segCost_ge (XTree.node d0 cs0) cs'
                omega)
      · -- the children fit; the overflow comes from the later siblings
        have hcsle : s.length + 1 + XTree.bdL cs ≤ maxStackSize := by omega
        have hrover : maxStackSize < s.length + 1 + XTree.bdL rest := by
          rcases max_choice (XTree.bdL cs) (XTree.bdL rest) with hm | hm <;> omega
        cases rest with
        | nil =>
          exact absurd hrover (by simp [XTree.bdL]; omega)
        | cons r0 rest' =>
          have hpne : p ≠ [] := by
            intro h
            subst h
            unfold tailTrees at htail
            simp at htail
          have hxp : p.dropLast ++ [p.getLast hpne] = p :=
            List.dropLast_append_getLast hpne
          have hb : bumpLast p = p.dropLast ++ [p.getLast hpne + 1] := by
            conv_lhs => rw [← hxp]
            rw [bumpLast_snoc]
          have hpbump : pathLtB p (bumpLast p) = true := by
            have h1 := pathLtB_snoc_bump p.dropLast (p.getLast hpne) []
            rw [hxp] at h1
            rw [hb]
            exact h1
          have hnsib : nextSiblingPath t p = some (bumpLast p) :=
            nsp_some htail (by simp)
          have hr2 := segCost_ge r0 rest'
          cases r0 with
          | node d1 cs1 =>
          have hif3 : (if (XTree.node d1 cs1 :: rest' : List XTree) = []
              then 2 else 3) = 3 := by simp
          rw [hif3] at hfuel
          obtain ⟨hsubr, htailr⟩ := tail_bump hsub htail
          cases cs with
          | nil =>
            rw [firstChildPath_none hsub]
            have hlvbump : lv ≠ some (bumpLast p) := by
              intro he
              exact pathLtB_ne (pathLtB_trans _ _ _ (hlv _ he) hpbump) rfl
            cases fuel' with
            | zero => omega
            | succ fuel'' =>
              rw [prepLoop_switch digest t fuel'' s p (bumpLast p) lv fs hnsib hlvbump]
              exact ih d1 cs1 rest' (bumpLast p)
                (by
                  have := XTree.sz_pos (XTree.node d [])
                  simp only [XTree.szL] at hszcs ⊢
                  omega)
                hsubr htailr (p :: s) lv fs fuel''
                (by simpa using hslt)
                (by simpa using hrover)
                (fun q hq => pathLtB_trans _ _ _ (hlv q hq) hpbump)
                (by omega)
          | cons c0 cs' =>
            cases c0 with
            | node d0 cs0 =>
            obtain ⟨hsubc, htailc⟩ := tail_child hsub
            rw [firstChildPath_some hsub]
            have hkeq : segCost (XTree.node d0 cs0 :: cs')
                + (fuel' - segCost (XTree.node d0 cs0 :: cs')) = fuel' := by
              have := segCost_ge (XTree.node d0 cs0) cs'
              omega
            rw [← hkeq]
            rw [prepSeg digest t (XTree.szL (XTree.node d0 cs0 :: cs')) d0 cs0 cs'
              (p ++ [0]) (le_refl _) hsubc htailc (p :: s) lv fs _
              (by simpa using hcsle)
              (fun q hq => pathLtB_append_right q p [0] (hlv q hq))]
            have hlt0 : pathLtB (p ++ [0]) (bumpLast p) = true := by
              have h1 := pathLtB_snoc_bump p.dropLast (p.getLast hpne) [0]
              rw [hb]
              have h2 : p.dropLast ++ p.getLast hpne :: [0] = p ++ [0] := by
                conv_rhs => rw [← hxp]
                simp
              rw [h2] at h1
              exact h1
            have hlvne : (some (p ++ [0]) : Option Path) ≠ some (bumpLast p) := by
              intro he
              exact pathLtB_ne hlt0 (Option.some.inj he)
            have hkge : 2 + segCost (XTree.node d1 cs1 :: rest')
                ≤ fuel' - segCost (XTree.node d0 cs0 :: cs') := by omega
            cases hk2 : fuel' - segCost (XTree.node d0 cs0 :: cs') with
            | zero => omega
            | succ k' =>
              rw [prepLoop_switch digest t k' s p (bumpLast p) (some (p ++ [0]))
                _ hnsib hlvne]
              exact ih d1 cs1 rest' (bumpLast p)
                (by
                  have := XTree.sz_pos (XTree.node d (XTree.node d0 cs0 :: cs'))
                  simp only [XTree.szL] at hszcs ⊢
                  omega)
                hsubr htailr (p :: s) (some (p ++ [0])) _ k'
                (by simpa using hslt)
                (by simpa using hrover)
                (fun q hq => by
                  cases Option.some.inj hq
                  exact hlt0)
                (by omega)

/-- `Prepare` on a tree whose binary stack depth exceeds the cap fails
with `depthExceeded`. -/
theorem Prepare_errs (digest : List Nat → List Nat) (t : XTree)
    (h : maxStackSize < XTree.bdL [t]) :
    Prepare digest t = some (.error .depthExceeded) := by
  cases t with
  | node d cs =>
    unfold Prepare
    rw [prepSegErr digest (XTree.node d cs) (XTree.szL [XTree.node d cs]) d cs []
      [] (le_refl _) rfl (tail_root _) [] none (fun _ => none)
      (prepFuel (XTree.node d cs)) (Nat.zero_le _) (by simpa using h)
      (fun q hq => by cases hq)
      (by
        have := segCost_le [XTree.node d cs]
        simp only [XTree.szL] at this
        unfold prepFuel
        omega)]
    rfl

/-- Anything `Prepare` successfully returns is the recursive reference
preparation. -/
theorem Prepare_char (digest : List Nat → List Nat) (t u : XTree)
    (h : Prepare digest t = some (.ok u)) : u = prepR digest [] t := by
  by_cases hb : XTree.bdL [t] ≤ maxStackSize
  · rw [Prepare_ok digest t hb] at h
    exact (Except.ok.inj (Option.some.inj h)).symm
  · rw [Prepare_errs digest t (by omega)] at h
    exact absurd (Option.some.inj h) (by simp)

/-! ## C5 -/

/-- C5: after the Preparer has (successfully) run on a tree, every node's
hash field equals the digest of the node's type tag, then its name, then
its value, then the hash fields of its children in sibling order; the
iterative post-order `Prepare` computes exactly the bottom-up recursive
hash (the whole output tree is the recursive reference preparation). -/
theorem C5_prepare_recursive_hash (digest : List Nat → List Nat) (t u : XTree)
    (h : Prepare digest t = some (.ok u)) :
    u = prepR digest [] t ∧
    ∀ (p : Path) (st : XTree), u.sub p = some st →
      st.hashF = digest ([st.data.type.byteVal] ++ st.data.name ++ st.data.value
        ++ (st.children.map XTree.hashF).flatten) := by
  have hu := Prepare_char digest t u h
  subst hu
  refine ⟨rfl, ?_⟩
  intro p st hsub
  rw [sub_prepR] at hsub
  cases hts : t.sub p with
  | none =>
    rw [hts] at hsub
    exact absurd hsub (by simp)
  | some s0 =>
    rw [hts] at hsub
    have hst : st = prepR digest (([] : List (List Nat)) ++ ancNames t p) s0 := by
      have : some (prepR digest (([] : List (List Nat)) ++ ancNames t p) s0)
          = some st := hsub
      exact (Option.some.inj this).symm
    subst hst
    cases s0 with
    | node d0 cs0 =>
      rw [prepR_hashF]
      show digest ([d0.type.byteVal] ++ d0.name ++ d0.value
          ++ (hashRL digest cs0).flatten)
        = digest ([d0.type.byteVal] ++ d0.name ++ d0.value
          ++ ((prepRL digest ((([] : List (List Nat)) ++ ancNames t p) ++ [d0.name])
              cs0).map XTree.hashF).flatten)
      rw [prepRL_hashF]

/-- C5 witness: the claim applied to the two-node document and the
concrete digest. -/
theorem C5_witness :
    Prepare d0 tSmall = some (.ok (prepR d0 [] tSmall)) ∧
    (prepR d0 [] tSmall = prepR d0 [] tSmall ∧
      ∀ (p : Path) (st : XTree), (prepR d0 [] tSmall).sub p = some st →
        st.hashF = d0 ([st.data.type.byteVal] ++ st.data.name ++ st.data.value
          ++ (st.children.map XTree.hashF).flatten)) :=
  ⟨rfl, C5_prepare_recursive_hash d0 tSmall (prepR d0 [] tSmall) rfl⟩

/-- C6 (amended): on every prepared tree the root's signature is the
single byte `/`, and for every non-root node (the node at `x ++ [i]`,
whose parent sits at `x`) stripping the last `/`-delimited segment of the
*parent's* signature yields a prefix of the *node's* signature — the
converse of the claimed direction, which `C6_counterexample` refutes. -/
theorem C6_amended_sig_law (digest : List Nat → List Nat) (t u : XTree)
    (h : Prepare digest t = some (.ok u)) :
    (u.at []).sigF = [47] ∧
    ∀ (x : Path) (i : Nat), (u.sub (x ++ [i])).isSome →
      isPfx (stripLastSeg ((u.at x).sigF)) ((u.at (x ++ [i])).sigF) = true := by
  have hu := Prepare_char digest t u h
  subst hu
  constructor
  · cases t with
    | node d cs => rfl
  · intro x i hsome
    rw [sub_append] at hsome
    cases hux : (prepR digest [] t).sub x with
    | none =>
      rw [hux] at hsome
      simp at hsome
    | some pt =>
      rw [hux] at hsome
      have hsx := hux
      rw [sub_prepR] at hsx
      cases hts : t.sub x with
      | none =>
        rw [hts] at hsx
        simp at hsx
      | some sx =>
        rw [hts] at hsx
        have hpt : some (prepR digest (([] : List (List Nat)) ++ ancNames t x) sx)
            = some pt := hsx
        cases Option.some.inj hpt
        cases sx with
        | node dx csx =>
          have hsome2 : ((prepR digest (([] : List (List Nat)) ++ ancNames t x)
              (XTree.node dx csx)).sub [i]).isSome = true := hsome
          rw [sub_prepR] at hsome2
          cases hci : (XTree.node dx csx).sub [i] with
          | none =>
            rw [hci] at hsome2
            simp at hsome2
          | some sc =>
            have hgi : csx[i]? = some sc := by
              cases hg : csx[i]? with
              | none =>
                rw [show (XTree.node dx csx).sub [i] = none by
                  simp [XTree.sub, hg]] at hci
                exact absurd hci (by simp)
              | some c =>
                rw [show (XTree.node dx csx).sub [i] = some c by
                  simp [XTree.sub, hg]] at hci
                exact hci
            have hanc : ancNames (XTree.node dx csx) [i] = [dx.name] := by
              simp [ancNames, hgi]
            have hsubxi : (prepR digest [] t).sub (x ++ [i])
                = some (prepR digest
                    ((([] : List (List Nat)) ++ ancNames t x) ++ [dx.name]) sc) := by
              rw [sub_append, hux]
              show (prepR digest (([] : List (List Nat)) ++ ancNames t x)
                  (XTree.node dx csx)).sub [i] = _
              rw [sub_prepR, hci]
              rw [hanc]
              rfl
            rw [at_of_sub hux, at_of_sub hsubxi]
            cases sc with
            | node dc csc =>
              show isPfx
                (stripLastSeg
                  (sigOf (([] : List (List Nat)) ++ ancNames t x) dx.type dx.name))
                (sigOf ((([] : List (List Nat)) ++ ancNames t x) ++ [dx.name])
                  dc.type dc.name) = true
              exact sigStep _ dx.type dc.type dx.name dc.name

/-- C6 witness: the amended law applied to the prepared two-node
document. -/
theorem C6_witness :
    Prepare d0 tSmall = some (.ok (prepR d0 [] tSmall)) ∧
    (((prepR d0 [] tSmall).at []).sigF = [47] ∧
      ∀ (x : Path) (i : Nat), ((prepR d0 [] tSmall).sub (x ++ [i])).isSome →
        isPfx (stripLastSeg (((prepR d0 [] tSmall).at x).sigF))
          (((prepR d0 [] tSmall).at (x ++ [i])).sigF) = true) :=
  ⟨rfl, C6_amended_sig_law d0 tSmall (prepR d0 [] tSmall) rfl⟩

/-! ## C8 -/

/-- A single chain of `n + 1` nested Element nodes. -/
def chainT : Nat → XTree
  | 0 => .node ⟨.Element, [99], [], [], []⟩ []
  | n + 1 => .node ⟨.Element, [99], [], [], []⟩ [chainT n]

theorem depth_chainT : ∀ n : Nat, (chainT n).depth = n + 1
  | 0 => rfl
  | n + 1 => by
    simp only [chainT, XTree.depth, XTree.depthL, depth_chainT n]
    omega

theorem bdL_chainT : ∀ n : Nat, XTree.bdL [chainT n] = n + 1
  | 0 => by simp [chainT, XTree.bdL]
  | n + 1 => by
    simp only [chainT, XTree.bdL, bdL_chainT n]
    omega

theorem depth_le_bdL (t : XTree) : t.depth ≤ XTree.bdL [t] := by
  have := XTree.depthL_le_bdL [t]
  simpa [XTree.depthL] using this

/-- C8 counterexample: a chain one node deeper than the cap.  Its depth
exceeds `maxStackSize` and `Prepare` duly fails with `depthExceeded`, but
`Compare` — whose nested walk the claim says also fails the operation on
over-deep trees — still returns a `nil` error: its `Push` results are
discarded by the source, so no execution of `Compare` ever errors. -/
theorem C8_counterexample :
    maxStackSize < (chainT maxStackSize).depth ∧
    Prepare d0 (chainT maxStackSize) = some (.error .depthExceeded) ∧
    (Compare (chainT maxStackSize) tSmall).2 = none := by
  refine ⟨?_, ?_, compare_snd_none _ _⟩
  · rw [depth_chainT]
    exact Nat.lt_succ_self _
  · apply Prepare_errs
    rw [bdL_chainT]
    exact Nat.lt_succ_self _

/-- C8 (amended): both traversals use an explicit stack capped at 10000
(`maxStackSize`), and the Preparer does fail with `depthExceeded` on every
tree deeper than the cap; but `Compare`'s nested walk never fails — the
source discards its `Push` results, so over-deep nodes are silently
dropped and the error component is always `nil`. -/
theorem C8_amended_stack_bound :
    (∀ (digest : List Nat → List Nat) (t : XTree), maxStackSize < t.depth →
      Prepare digest t = some (.error .depthExceeded)) ∧
    (∀ l r : XTree, (Compare l r).2 = none) := by
  constructor
  · intro digest t h
    exact Prepare_errs digest t (lt_of_lt_of_le h (depth_le_bdL t))
  · exact fun l r => compare_snd_none l r

/-- C8 witness: the amended theorem applied to the over-deep chain and a
small pair. -/
theorem C8_witness :
    Prepare d0 (chainT maxStackSize) = some (.error .depthExceeded) ∧
    (Compare tSmall tSmall).2 = none :=
  ⟨C8_amended_stack_bound.1 d0 (chainT maxStackSize)
    (by rw [depth_chainT]; exact Nat.lt_succ_self _),
   C8_amended_stack_bound.2 tSmall tSmall⟩

end XDiff
